import Mathlib

/-!
Verification of the release structure assembler of `Tools/KspReleaseBuilder.py`
(class `Builder`): macro resolution (`__ParseMacros`), source/destination path
resolution (`__MakeSrcPath`, `__MakeDestPath`), the entry ordering and the
folder-structure step (`__Step_MakeFoldersStructure`), and the safe filesystem
primitives (`__CheckChroot`, `__OsSafeMakedirs`, `__OsSafeCopyToRelease`,
`__OsSafeDeleteFromDest`).

Modelling conventions:
* Absolute POSIX paths are lists of components (the parts between the `/`
  separators of a normalized absolute path).
* Python string-level operations that the code relies on
  (`os.path.normpath`, `os.path.relpath`, `str.startswith("..")`,
  `os.path.split`, `"=>NULL" in s`) are modelled exactly, including their
  textual quirks (e.g. `relpath(...).startswith("..")` is true for a first
  component literally beginning with the two characters `..`).
* The filesystem is a pair of lists (files, dirs) of absolute paths;
  `glob.glob` is modelled for the `*`/`?` wildcard subset (per component,
  with the hidden-dotfile rule) which covers every pattern shape the
  builder's configuration language uses.
* Fallible code returns `Except BErr`; `exit(-1)` sites become distinct
  error values.  Python's recursion in `parse_macros` is given explicit
  fuel; the fuel-polymorphic theorems show termination behaviour.
-/

/-- The opening brace character (written via its code point). -/
def lbrace : Char := Char.ofNat 123

/-- The closing brace character (written via its code point). -/
def rbrace : Char := Char.ofNat 125

/-! ## Path components: `os.path.normpath` / `os.path.relpath` -/

/-- `str.split(sep)` for a single separator character, on character
lists.  Splitting the empty string yields a singleton empty part, as in Python. -/
def splitChars (sep : Char) : List Char → List (List Char)
  | [] => [[]]
  | c :: rest =>
    let r := splitChars sep rest
    if c = sep then [] :: r
    else
      match r with
      | h :: t => (c :: h) :: t
      | [] => [[c]]

/-- String prefix test that computes on the character lists. -/
def strPre (p s : String) : Bool := p.toList.isPrefixOf s.toList

/-- Split a POSIX path string on `/` into raw components (may contain
empty components for leading/duplicate separators, as `str.split('/')`). -/
def splitPath (s : String) : List String :=
  (splitChars '/' s.toList).map String.mk

/-- `os.path.normpath` on an absolute path, acting on raw components:
drops empty and `.` components, and lets `..` pop the previous component
(or vanish at the root, as normpath does for absolute paths). -/
def normalizeComps (l : List String) : List String :=
  l.foldl (fun acc c =>
    if c = "" ∨ c = "." then acc
    else if c = ".." then acc.dropLast
    else acc ++ [c]) []

/-- Length of the longest common component prefix of two paths. -/
def commonPrefixLen : List String → List String → Nat
  | a :: as, b :: bs => if a = b then commonPrefixLen as bs + 1 else 0
  | _, _ => 0

/-- `os.path.relpath p root` on component lists: as many `..` steps as the
root has components beyond the common prefix, then the rest of `p`;
the empty result becomes `.` exactly as in Python. -/
def relpathComps (p root : List String) : List String :=
  let k := commonPrefixLen p root
  let r := List.replicate (root.length - k) ".." ++ p.drop k
  if r = [] then ["."] else r

/-- `str.startswith("..")` on the `/`-joined form of a component list:
true iff the first component begins with the two characters `..`. -/
def startsDotDot (l : List String) : Bool :=
  match l with
  | [] => false
  | c :: _ => strPre ".." c

/-- `'/'.join`, computing on character lists. -/
def joinSlash : List String → String
  | [] => ""
  | [c] => c
  | c :: rest => c ++ "/" ++ joinSlash rest

/-- Join an absolute component path back into a POSIX string. -/
def pathToString (l : List String) : String := "/" ++ joinSlash l

/-- Does the string start with `/`?  (Python `s[0] == '/'` guarded by
truthiness.) -/
def startsSlash (s : String) : Bool :=
  match s.toList with
  | c :: _ => c = '/'
  | [] => false

/-- `os.path.join(a, b)` for two path strings (POSIX rules). -/
def osJoin (a b : String) : String :=
  if startsSlash b then b
  else if a = "" then b
  else if a.toList.getLast? = some '/' then a ++ b
  else a ++ "/" ++ b

/-- `os.path.abspath` relative to a current working directory given as an
absolute component list. -/
def abspath (cwd : List String) (s : String) : List String :=
  if startsSlash s then normalizeComps (splitPath s)
  else normalizeComps (cwd ++ splitPath s)

/-- Substring test on character lists (`needle in haystack` in Python). -/
def containsSub (needle hay : List Char) : Bool :=
  hay.tails.any (fun t => needle.isPrefixOf t)

/-- `"=>NULL" in abs_path`: some component of the path contains the
unresolved-macro marker as a substring. -/
def hasNullMarker (l : List String) : Bool :=
  l.any (fun c => containsSub "=>NULL".toList c.toList)

/-! ## The macro resolver (`Builder.__ParseMacros`) -/

/-- A character matched by `\w` in the macro regex (ASCII key names). -/
def isWordChar (c : Char) : Bool := c.isAlpha || c.isDigit || c = '_'

/-- Try to match the tail of `\{(\D\w*)}` right after an opening brace:
one non-digit character, then word characters, then a closing brace.
Returns the macro key and the remaining characters. -/
def matchKeyAfterBrace : List Char → Option (String × List Char)
  | [] => none
  | c :: rest =>
    if c.isDigit then none
    else
      match rest.dropWhile isWordChar with
      | d :: tail =>
        if d = rbrace then some (String.mk (c :: rest.takeWhile isWordChar), tail)
        else none
      | [] => none

/-- Leftmost match of the regex `\{(\D\w*)}` in a character list: returns
(text before the match, macro key, text after the match). -/
def findMacroRef : List Char → Option (List Char × String × List Char)
  | [] => none
  | c :: rest =>
    if c = lbrace then
      match matchKeyAfterBrace rest with
      | some (key, tail) => some ([], key, tail)
      | none =>
        match findMacroRef rest with
        | some (pre, key, post) => some (c :: pre, key, post)
        | none => none
    else
      match findMacroRef rest with
      | some (pre, key, post) => some (c :: pre, key, post)
      | none => none

/-- Macro resolution errors (each corresponds to an `exit(-1)` site or, for
`fuelExhausted`, to non-termination of the Python recursion). -/
inductive MErr where
  | fuelExhausted : MErr
  | cycle : String → MErr
  | restricted : String → MErr
  | unknown : String → MErr
  deriving DecidableEq

/-- The `"{%s=>NULL}" % key` sentinel produced for an unset (falsy)
attribute. -/
def sentinel (key : String) : String :=
  String.mk (lbrace :: (key.toList ++ "=>NULL".toList ++ [rbrace]))

/-- A single braced macro reference built from a key. -/
def braced (key : String) : String :=
  String.mk (lbrace :: (key.toList ++ [rbrace]))

/-- The string-valued attributes of the `Builder` object, as an association
list.  A value `""` models a falsy attribute (Python `None` or empty
string); an absent key models `hasattr(self, key) == False`. -/
abbrev Attrs := List (String × String)

/-- The inner `parse_macros`/`get_macro_value` pair of `Builder.__ParseMacros`.
`parents` is the shared mutable list that is appended to on every macro
lookup and never popped; it is threaded through and returned.  `fuel`
bounds the recursion depth of the Python implementation. -/
def parseMacros (attrs : Attrs) : List String → List Char → Nat →
    Except MErr (List Char × List String)
  | _, _, 0 => .error .fuelExhausted
  | parents, s, fuel + 1 =>
    match findMacroRef s with
    | none => .ok (s, parents)
    | some (pre, key, post) =>
      if parents.contains key then .error (.cycle key)
      else
        let parents1 := parents ++ [key]
        if strPre "__" key then .error (.restricted key)
        else
          match attrs.lookup key with
          | none => .error (.unknown key)
          | some v =>
            let value := if v = "" then sentinel key else v
            match parseMacros attrs parents1 value.toList fuel with
            | .error e => .error e
            | .ok (mid, parents2) =>
              match parseMacros attrs parents2 post fuel with
              | .error e => .error e
              | .ok (rest, parents3) => .ok (pre ++ mid ++ rest, parents3)

/-! ## Builder configuration and errors -/

/-- Errors of the builder core.  Each constructor models one fatal
`exit(-1)` / exception site of the Python code. -/
inductive BErr where
  | macroErr : MErr → BErr
  | attrMissing : String → BErr
  | unresolvedPath : BErr
  | pathEscape : BErr
  | chrootViolation : BErr
  | noMatch : List String → BErr
  | invalidDeletionScope : BErr
  | indexError : BErr
  | nameError : BErr
  | sourceMissing : List String → BErr
  deriving DecidableEq

/-- The state of a `Builder` object at the time
`__Step_MakeFoldersStructure` runs: its string attributes, the resolved
absolute project root, the working directory (set by `os.chdir` earlier in
the run) and the recursion fuel for macro expansion. -/
structure Config where
  attrs : Attrs
  absProjectRoot : List String
  cwd : List String
  fuel : Nat

/-- `getattr(self, name)` for a direct (non-macro) attribute access. -/
def getAttrStr (cfg : Config) (name : String) : Except BErr String :=
  match cfg.attrs.lookup name with
  | none => .error (.attrMissing name)
  | some v => .ok v

/-- `self.__ParseMacros(s)`: top-level resolution with a fresh `parents`
list. -/
def parseM (cfg : Config) (s : String) : Except BErr String :=
  match parseMacros cfg.attrs [] s.toList cfg.fuel with
  | .error e => .error (.macroErr e)
  | .ok (l, _) => .ok (String.mk l)

/-! ## Path resolvers (`__MakeSrcPath`, `__MakeDestPath`) -/

/-- The path-construction part of `Builder.__MakeSrcPath`: macro-expand the
pattern, root it at the project root (prefixing the `SOURCE` subfolder for
non-`/` patterns) and normalize, without the unresolved/containment
checks. -/
def makeSrcPathParts (cfg : Config) (relPath : String) : Except BErr (List String) := do
  let rel ← parseM cfg relPath
  let base ←
    if rel = "" ∨ ¬ startsSlash rel then do
      let src ← getAttrStr cfg "SOURCE"
      let srcP ← parseM cfg src
      pure (splitPath srcP)
    else
      pure ([] : List String)
  pure (normalizeComps (cfg.absProjectRoot ++ base ++ splitPath rel))

/-- `Builder.__MakeSrcPath`: resolve a source pattern to an absolute path,
failing on an unresolved `=>NULL` component (unless allowed) and on
`os.path.relpath(abs_path, abs_root).startswith("..")`. -/
def makeSrcPath (cfg : Config) (relPath : String) (allowUnresolved : Bool) :
    Except BErr (List String) := do
  let p ← makeSrcPathParts cfg relPath
  if hasNullMarker p && !allowUnresolved then .error .unresolvedPath
  else if startsDotDot (relpathComps p cfg.absProjectRoot) then .error .pathEscape
  else pure p

/-- The destination root `normpath(join(ABS_PROJECT_ROOT,
ParseMacros("{RELEASE}/GameData")))`. -/
def destRoot (cfg : Config) : Except BErr (List String) := do
  let s ← parseM cfg (String.mk (lbrace :: ("RELEASE".toList ++ [rbrace] ++ "/GameData".toList)))
  pure (normalizeComps (cfg.absProjectRoot ++ splitPath s))

/-- The path-construction part of `Builder.__MakeDestPath` (rooted at the
release `GameData` folder, prefixing `RELEASE_MOD_FOLDER` for non-`/`
patterns). -/
def makeDestPathParts (cfg : Config) (relPath : String) : Except BErr (List String) := do
  let root ← destRoot cfg
  let rel ← parseM cfg relPath
  let base ←
    if rel = "" ∨ ¬ startsSlash rel then do
      let mf ← getAttrStr cfg "RELEASE_MOD_FOLDER"
      let mfP ← parseM cfg mf
      pure (splitPath mfP)
    else
      pure ([] : List String)
  pure (normalizeComps (root ++ base ++ splitPath rel))

/-- `Builder.__MakeDestPath`: resolve a destination pattern, failing on an
unresolved component (unless allowed) and on escaping the release
`GameData` folder. -/
def makeDestPath (cfg : Config) (relPath : String) (allowUnresolved : Bool) :
    Except BErr (List String) := do
  let root ← destRoot cfg
  let p ← makeDestPathParts cfg relPath
  if hasNullMarker p && !allowUnresolved then .error .unresolvedPath
  else if startsDotDot (relpathComps p root) then .error .pathEscape
  else pure p

/-! ## Safe filesystem primitives -/

/-- The filesystem: the sets of existing files and directories, by
absolute component path. -/
structure FS where
  files : List (List String)
  dirs : List (List String)
  deriving DecidableEq

/-- Observable filesystem effects of one assembly run. -/
inductive FsAct where
  | mkdirs : List String → FsAct
  | copyFile : List String → List String → FsAct
  | copyTree : List String → List String → FsAct
  | unlink : List String → FsAct
  | rmtree : List String → FsAct
  deriving DecidableEq

/-- `Builder.__GetAbsReleaseFolder` as a string:
`os.path.join(ABS_PROJECT_ROOT, ParseMacros(RELEASE))`. -/
def absReleaseFolderS (cfg : Config) : Except BErr String := do
  let rel ← getAttrStr cfg "RELEASE"
  let r ← parseM cfg rel
  pure (osJoin (pathToString cfg.absProjectRoot) r)

/-- `Builder.__CheckChroot`: macro-expand both paths, make them absolute,
and fail if the test path is outside the chroot (default chroot: the
`PROJECT_ROOT` attribute). -/
def checkChroot (cfg : Config) (testPath : String) (chroot : Option String) :
    Except BErr (List String) := do
  let t ← parseM cfg testPath
  let croot ←
    match chroot with
    | some c => parseM cfg c
    | none => do
      let pr ← getAttrStr cfg "PROJECT_ROOT"
      parseM cfg pr
  let absT := abspath cfg.cwd t
  let absC := abspath cfg.cwd croot
  if startsDotDot (relpathComps absT absC) then .error .chrootViolation
  else pure absT

/-- All non-empty ancestor prefixes of a path (what `os.makedirs`
creates). -/
def ancestors (p : List String) : List (List String) :=
  (List.range p.length).map (fun i => p.take (i + 1))

/-- `Builder.__OsSafeMakedirs`: chroot-check, then create the folder and
its missing ancestors unless it already exists. -/
def osSafeMakedirs (cfg : Config) (fs : FS) (folder : String) :
    Except BErr (FS × List FsAct) := do
  let absP ← checkChroot cfg folder none
  if fs.dirs.contains absP then pure (fs, [])
  else
    pure ({ fs with
              dirs := fs.dirs ++ (ancestors absP).filter (fun d => !fs.dirs.contains d) },
          [FsAct.mkdirs absP])

/-- `os.path.basename` of a component path. -/
def lastComp (p : List String) : String := (p.getLast?).getD ""

/-- `shutil.copytree(src, dst)`: mirror the subtree rooted at `src` to
`dst` (which `copytree` creates, with its missing ancestors). -/
def copyTreeFS (fs : FS) (src dst : List String) : FS :=
  { files := fs.files ++ (fs.files.filter (fun f => src.isPrefixOf f)).map
      (fun f => dst ++ f.drop src.length),
    dirs := fs.dirs ++ (ancestors dst).filter (fun d => !fs.dirs.contains d)
      ++ (fs.dirs.filter (fun d => src.isPrefixOf d ∧ d ≠ src)).map
        (fun d => dst ++ d.drop src.length) }

/-- `Builder.__OsSafeCopyToRelease` with the default
`source_must_exist=True`: chroot-check source (against the project root)
and destination (against the release folder); copy a file after lazily
creating the destination folder, or copy a directory tree under the
destination using the source's base name. -/
def osSafeCopyToRelease (cfg : Config) (fs : FS) (src destP : List String) :
    Except BErr (FS × List FsAct) := do
  let absSrc ← checkChroot cfg (pathToString src) none
  let rel ← absReleaseFolderS cfg
  let absDest ← checkChroot cfg (pathToString destP) (some rel)
  if fs.files.contains absSrc then do
    let (fs1, a1) ← osSafeMakedirs cfg fs (pathToString absDest)
    pure ({ fs1 with files := fs1.files ++ [absDest ++ [lastComp absSrc]] },
          a1 ++ [FsAct.copyFile absSrc absDest])
  else if fs.dirs.contains absSrc then
    pure (copyTreeFS fs absSrc (absDest ++ [lastComp absSrc]), [FsAct.copyTree absSrc absDest])
  else
    .error (.sourceMissing absSrc)

/-- `shutil.rmtree(p, True)` together with the removal of `p` itself. -/
def removeSubtree (fs : FS) (p : List String) : FS :=
  { files := fs.files.filter (fun f => !p.isPrefixOf f),
    dirs := fs.dirs.filter (fun d => !p.isPrefixOf d) }

/-- `Builder.__OsSafeDeleteFromDest`: chroot-check against the release
folder, then unlink a file or recursively (and tolerantly) remove a
directory tree. -/
def osSafeDeleteFromDest (cfg : Config) (fs : FS) (pathS : String) :
    Except BErr (FS × List FsAct) := do
  let rel ← absReleaseFolderS cfg
  let absP ← checkChroot cfg pathS (some rel)
  if fs.files.contains absP then
    pure ({ fs with files := fs.files.filter (fun f => f ≠ absP) }, [FsAct.unlink absP])
  else
    pure (removeSubtree fs absP, [FsAct.rmtree absP])

/-! ## `glob.glob` for the builder's pattern subset -/

/-- `fnmatch`-style matching of one pattern component against one name
component, for the `*` and `?` wildcards (`*` matches any run of
characters within the component; it tries every suffix of the name). -/
def globMatchC : List Char → List Char → Bool
  | [], s => s.isEmpty
  | p :: ps, s =>
    if p = '*' then s.tails.any (fun t => globMatchC ps t)
    else
      match s with
      | [] => false
      | c :: cs => if p = '?' then globMatchC ps cs else p = c && globMatchC ps cs

/-- One pattern component against one name, with the hidden-file
rule: a pattern that does not itself start with `.` never matches a name
starting with `.`. -/
def globComp (pat name : String) : Bool :=
  if (match name.toList with | c :: _ => c = '.' | [] => false)
      && !(match pat.toList with | c :: _ => c = '.' | [] => false) then false
  else globMatchC pat.toList name.toList

/-- Componentwise glob match of a whole absolute path. -/
def compsMatch (pat p : List String) : Bool :=
  pat.length = p.length && (List.zip pat p).all (fun q => globComp q.1 q.2)

/-- `glob.glob(pattern)`: the existing filesystem entries matching the
pattern componentwise. -/
def globFS (fs : FS) (pat : List String) : List (List String) :=
  (fs.files ++ fs.dirs).filter (fun p => compsMatch pat p)

/-! ## `Builder.__Step_MakeFoldersStructure` -/

/-- Three-way comparison of characters by code point. -/
def charCmp (a b : Char) : Ordering :=
  if a < b then .lt else if b < a then .gt else .eq

/-- Lexicographic three-way comparison of character lists. -/
def lexCmp : List Char → List Char → Ordering
  | [], [] => .eq
  | [], _ :: _ => .lt
  | _ :: _, [] => .gt
  | a :: as, b :: bs =>
    match charCmp a b with
    | .eq => lexCmp as bs
    | o => o

/-- Python 2 `cmp(x, y)` on strings (lexicographic by character code,
which for the builder's ASCII keys is Python's byte order). -/
def pyCmp (x y : String) : Ordering := lexCmp x.toList y.toList

/-- `target_cmp_fn`: rooted keys (leading `/`) sort before non-rooted
keys; otherwise plain string comparison. -/
def targetCmp (x y : String) : Ordering :=
  if startsSlash x && !startsSlash y then .lt
  else if startsSlash y && !startsSlash x then .gt
  else pyCmp x y

/-- The ordering relation induced by `target_cmp_fn` (`x` does not come
strictly after `y`). -/
def keyLe (x y : String) : Prop := targetCmp x y ≠ Ordering.gt

instance : DecidableRel keyLe := fun x y => by
  unfold keyLe; infer_instance

/-- `target_cmp_fn` lifted to mapping entries through `key=lambda x: x[0]`. -/
def entryLe (a b : String × List String) : Prop := keyLe a.1 b.1

instance : DecidableRel entryLe := fun a b => by
  unfold entryLe; infer_instance

/-- `sorted(self.STRUCTURE.iteritems(), key=lambda x: x[0], cmp=target_cmp_fn)`. -/
def sortEntries (l : List (String × List String)) : List (String × List String) :=
  List.insertionSort entryLe l

/-- State of the per-entry pattern loop: the `copy_sources` accumulator
(`None` until a non-drop pattern is reached) and the `drop_patterns`
list. -/
structure PatState where
  copySources : Option (List (List String))
  dropPatterns : List String
  deriving DecidableEq

/-- One iteration of the `for src_pattern in src_patterns` loop.
`src_pattern[0]` on the empty string is an `IndexError`. -/
def processPattern (cfg : Config) (fs : FS) (st : PatState) (sp : String) :
    Except BErr PatState :=
  match sp.toList with
  | [] => .error .indexError
  | c :: rest =>
    if c = '?' then do
      let pat ← makeSrcPath cfg (String.mk rest) true
      if hasNullMarker pat then pure st
      else pure { st with copySources := some (st.copySources.getD [] ++ globFS fs pat) }
    else if c = '-' then
      pure { st with dropPatterns := st.dropPatterns ++ [String.mk rest] }
    else do
      let pat ← makeSrcPath cfg sp false
      let ms := globFS fs pat
      if ms.isEmpty then .error (.noMatch pat)
      else pure { st with copySources := some (st.copySources.getD [] ++ ms) }

/-- The whole pattern loop of one entry. -/
def processPatternList (cfg : Config) (fs : FS) : PatState → List String →
    Except BErr PatState
  | st, [] => .ok st
  | st, p :: ps => do
    processPatternList cfg fs (← processPattern cfg fs st p) ps

/-- The `for source in copy_sources` loop.  The second component tracks
the Python local variable `source` (function-scoped, shared across
entries); it is `none` while the variable is still unbound. -/
def copyLoop (cfg : Config) (destP : List String) :
    FS → Option (List String) → List FsAct → List (List String) →
    FS × Option (List String) × List FsAct × Option BErr
  | fs, sv, acc, [] => (fs, sv, acc, none)
  | fs, _, acc, s :: ss =>
    match osSafeCopyToRelease cfg fs s destP with
    | .error e => (fs, some s, acc, some e)
    | .ok (fs1, as) => copyLoop cfg destP fs1 (some s) (acc ++ as) ss

/-- The copy block of one entry (`if copy_sources is not None`): run the
copies, then on an empty list print the skip-empty-folder message with `source` —
which raises `NameError` when the loop variable was never bound in this
run of `__Step_MakeFoldersStructure`. -/
def copyPhase (cfg : Config) (fs : FS) (sv : Option (List String))
    (cs : Option (List (List String))) (destP : List String) :
    FS × Option (List String) × List FsAct × Option BErr :=
  match cs with
  | none => (fs, sv, [], none)
  | some srcs =>
    match copyLoop cfg destP fs sv [] srcs with
    | (fs1, sv1, acts, some e) => (fs1, sv1, acts, some e)
    | (fs1, sv1, acts, none) =>
      if srcs.isEmpty then
        match sv1 with
        | none => (fs1, sv1, acts, some .nameError)
        | some _ => (fs1, sv1, acts, none)
      else (fs1, sv1, acts, none)

/-- One `-` pattern of the drop loop: resolve it against the entry's own
destination key, apply the scope check
(`relpath.startswith("..") or head`), then glob and delete. -/
def processDrop (cfg : Config) (fs : FS) (destFolder : String)
    (destP : List String) (pat : String) : FS × List FsAct × Option BErr :=
  match makeDestPath cfg (osJoin destFolder pat) false with
  | .error e => (fs, [], some e)
  | .ok cleanup =>
    let rel := relpathComps cleanup destP
    if startsDotDot rel || decide (2 ≤ rel.length) then
      (fs, [], some .invalidDeletionScope)
    else
      let targets := globFS fs cleanup
      if targets.isEmpty then (fs, [], none)
      else dropTargets cfg fs [] targets
where
  /-- `for target in targets: self.__OsSafeDeleteFromDest(target)`. -/
  dropTargets (cfg : Config) : FS → List FsAct → List (List String) →
      FS × List FsAct × Option BErr
    | fs, acc, [] => (fs, acc, none)
    | fs, acc, t :: ts =>
      match osSafeDeleteFromDest cfg fs (pathToString t) with
      | .error e => (fs, acc, some e)
      | .ok (fs1, as) => dropTargets cfg fs1 (acc ++ as) ts

/-- The drop loop of one entry over all its `-` patterns. -/
def dropPhase (cfg : Config) (destFolder : String) (destP : List String) :
    FS → List FsAct → List String → FS × List FsAct × Option BErr
  | fs, acc, [] => (fs, acc, none)
  | fs, acc, p :: ps =>
    match processDrop cfg fs destFolder destP p with
    | (fs1, as, some e) => (fs1, acc ++ as, some e)
    | (fs1, as, none) => dropPhase cfg destFolder destP fs1 (acc ++ as) ps

/-- Processing of one mapping entry `(dest_folder, src_patterns)`:
resolve the destination, run the pattern loop, the copy block and the
drop loop.  Returns the filesystem, the `source` variable state, the
action trace and the fatal error if one occurred. -/
def processEntry (cfg : Config) (fs : FS) (sv : Option (List String))
    (entry : String × List String) :
    FS × Option (List String) × List FsAct × Option BErr :=
  match makeDestPath cfg entry.1 false with
  | .error e => (fs, sv, [], some e)
  | .ok destP =>
    match processPatternList cfg fs ⟨none, []⟩ entry.2 with
    | .error e => (fs, sv, [], some e)
    | .ok st =>
      match copyPhase cfg fs sv st.copySources destP with
      | (fs1, sv1, a1, some e) => (fs1, sv1, a1, some e)
      | (fs1, sv1, a1, none) =>
        match dropPhase cfg entry.1 destP fs1 [] st.dropPatterns with
        | (fs2, a2, e2) => (fs2, sv1, a1 ++ a2, e2)

/-- `__Step_MakeFoldersStructure`: sort the mapping, then process the
entries in order, stopping at the first fatal error. -/
def processStructure (cfg : Config) (fs : FS) (struct : List (String × List String)) :
    FS × List FsAct × Option BErr :=
  go fs none [] (sortEntries struct)
where
  go : FS → Option (List String) → List FsAct → List (String × List String) →
      FS × List FsAct × Option BErr
    | fs, _, acc, [] => (fs, acc, none)
    | fs, sv, acc, e :: es =>
      match processEntry cfg fs sv e with
      | (fs1, _, as, some err) => (fs1, acc ++ as, some err)
      | (fs1, sv1, as, none) => go fs1 sv1 (acc ++ as) es

/-! ## Containment lemmas -/

theorem commonPrefixLen_le_left : ∀ p q : List String, commonPrefixLen p q ≤ p.length
  | [], _ => by simp [commonPrefixLen]
  | _ :: _, [] => by simp [commonPrefixLen]
  | a :: as, b :: bs => by
    simp only [commonPrefixLen]
    split
    · exact Nat.succ_le_succ (commonPrefixLen_le_left as bs)
    · exact Nat.zero_le _

theorem commonPrefixLen_le_right : ∀ p q : List String, commonPrefixLen p q ≤ q.length
  | [], _ => by simp [commonPrefixLen]
  | _ :: _, [] => by simp [commonPrefixLen]
  | a :: as, b :: bs => by
    simp only [commonPrefixLen]
    split
    · exact Nat.succ_le_succ (commonPrefixLen_le_right as bs)
    · exact Nat.zero_le _

theorem prefix_of_commonPrefixLen_eq :
    ∀ p q : List String, commonPrefixLen p q = q.length → q <+: p
  | _, [], _ => by simp
  | [], _ :: _, h => by simp [commonPrefixLen] at h
  | a :: as, b :: bs, h => by
    simp only [commonPrefixLen] at h
    split at h
    · next hab =>
      subst hab
      rw [List.cons_prefix_cons]
      exact ⟨rfl, prefix_of_commonPrefixLen_eq as bs (Nat.succ_injective h)⟩
    · simp at h

/-- When the root is not exhausted by the common prefix, the relative
path starts with a literal `..` component. -/
theorem relpathComps_head_of_lt {p root : List String}
    (hlt : commonPrefixLen p root < root.length) :
    relpathComps p root =
      ".." :: (List.replicate (root.length - commonPrefixLen p root - 1) ".."
        ++ p.drop (commonPrefixLen p root)) := by
  have hpos : 0 < root.length - commonPrefixLen p root := Nat.sub_pos_of_lt hlt
  obtain ⟨n, hn⟩ : ∃ n, root.length - commonPrefixLen p root = n + 1 :=
    ⟨_, (Nat.succ_pred_eq_of_pos hpos).symm⟩
  simp only [relpathComps, hn, List.replicate_succ, List.cons_append,
    reduceCtorEq, if_false]
  simp

/-- If the Python relpath check `startswith("..")` does not fire, the path
is equal to or nested under the root. -/
theorem within_of_not_startsDotDot {p root : List String}
    (h : startsDotDot (relpathComps p root) = false) : root <+: p := by
  by_cases hk : commonPrefixLen p root = root.length
  · exact prefix_of_commonPrefixLen_eq p root hk
  · exfalso
    have hlt : commonPrefixLen p root < root.length :=
      lt_of_le_of_ne (commonPrefixLen_le_right p root) hk
    rw [relpathComps_head_of_lt hlt] at h
    have hT : strPre ".." ".." = true := by decide
    simp [startsDotDot, hT] at h

/-- Conversely, an escaping path always makes the check fire. -/
theorem startsDotDot_of_not_within {p root : List String}
    (h : ¬ root <+: p) : startsDotDot (relpathComps p root) = true := by
  by_contra hc
  exact h (within_of_not_startsDotDot (Bool.not_eq_true _ ▸ Bool.of_not_eq_true hc))

/-! ## Concrete configurations used as test inputs -/

/-- A representative attribute set: the JSON-configurable string fields a
release setup provides. -/
def attrs0 : Attrs :=
  [("SOURCE", "Source"), ("RELEASE", "Release"), ("RELEASE_MOD_FOLDER", "Mod"),
   ("PROJECT_ROOT", "/r"), ("PACKAGE_NAME", "KAS")]

/-- A builder whose project root is the absolute directory `/r`. -/
def cfg0 : Config :=
  { attrs := attrs0, absProjectRoot := ["r"], cwd := ["r"], fuel := 20 }

/-- The empty filesystem. -/
def fs0 : FS := { files := [], dirs := [] }

/-! ## C1: containment of the path resolvers -/

theorem except_bind_ok {α β ε : Type} (x : α) (f : α → Except ε β) :
    (Except.ok x >>= f) = f x := rfl

theorem except_bind_error {α β ε : Type} (e : ε) (f : α → Except ε β) :
    ((Except.error e : Except ε α) >>= f) = Except.error e := rfl

theorem makeSrcPath_eq (cfg : Config) (pat : String) (allow : Bool)
    (p : List String) (h : makeSrcPathParts cfg pat = .ok p) :
    makeSrcPath cfg pat allow =
      (if hasNullMarker p && !allow then .error .unresolvedPath
       else if startsDotDot (relpathComps p cfg.absProjectRoot) then .error .pathEscape
       else .ok p) := by
  simp only [makeSrcPath, h, except_bind_ok]
  rfl

theorem makeDestPath_eq (cfg : Config) (pat : String) (allow : Bool)
    (root p : List String) (hr : destRoot cfg = .ok root)
    (h : makeDestPathParts cfg pat = .ok p) :
    makeDestPath cfg pat allow =
      (if hasNullMarker p && !allow then .error .unresolvedPath
       else if startsDotDot (relpathComps p root) then .error .pathEscape
       else .ok p) := by
  simp only [makeDestPath, hr, h, except_bind_ok]
  rfl

/-- C1 (amended).  Source-side and destination-side resolvers:
(1) a returned path is always the constructed normalized path and always
lies within the mandated root (the project root, resp. the release
`GameData` folder) — an escaping path is never returned and the check
aborts with the path-escape error;
(2) however, containment of the constructed path does not suffice for
acceptance: the resolver returns a contained path unmodified only when
its path relative to the root does not *textually* begin with the two
characters `..`; a contained path whose first root-relative component
merely starts with `..` (e.g. a top-level entry named `..foo`) is also
rejected with the path-escape error (see the separate counterexample).
-/
theorem c1_containment_amended (cfg : Config) (pat : String) (allow : Bool)
    (p root : List String) :
    (makeSrcPath cfg pat allow = .ok p →
        cfg.absProjectRoot <+: p ∧ makeSrcPathParts cfg pat = .ok p)
  ∧ (makeSrcPathParts cfg pat = .ok p → ¬ cfg.absProjectRoot <+: p →
        (hasNullMarker p && !allow) = false →
        makeSrcPath cfg pat allow = .error .pathEscape)
  ∧ (makeSrcPathParts cfg pat = .ok p →
        startsDotDot (relpathComps p cfg.absProjectRoot) = false →
        (hasNullMarker p && !allow) = false →
        makeSrcPath cfg pat allow = .ok p)
  ∧ (destRoot cfg = .ok root →
        (makeDestPath cfg pat allow = .ok p →
            root <+: p ∧ makeDestPathParts cfg pat = .ok p)
      ∧ (makeDestPathParts cfg pat = .ok p → ¬ root <+: p →
            (hasNullMarker p && !allow) = false →
            makeDestPath cfg pat allow = .error .pathEscape)
      ∧ (makeDestPathParts cfg pat = .ok p →
            startsDotDot (relpathComps p root) = false →
            (hasNullMarker p && !allow) = false →
            makeDestPath cfg pat allow = .ok p)) := by
  refine ⟨?_, ?_, ?_, ?_⟩
  · intro h
    cases hp : makeSrcPathParts cfg pat with
    | error e => simp [makeSrcPath, hp, except_bind_error] at h
    | ok q =>
      rw [makeSrcPath_eq cfg pat allow q hp] at h
      cases hA : hasNullMarker q && !allow with
      | true => simp [hA] at h
      | false =>
        cases hB : startsDotDot (relpathComps q cfg.absProjectRoot) with
        | true => simp [hA, hB] at h
        | false =>
          simp only [hA, hB, Bool.false_eq_true, if_false] at h
          have hqp : q = p := by simpa using h
          subst hqp
          exact ⟨within_of_not_startsDotDot hB, rfl⟩
  · intro hp hout hnull
    rw [makeSrcPath_eq cfg pat allow p hp, hnull]
    simp [startsDotDot_of_not_within hout]
  · intro hp hdd hnull
    rw [makeSrcPath_eq cfg pat allow p hp, hnull, hdd]
    simp
  · intro hr
    refine ⟨?_, ?_, ?_⟩
    · intro h
      cases hp : makeDestPathParts cfg pat with
      | error e => simp [makeDestPath, hr, hp, except_bind_ok, except_bind_error] at h
      | ok q =>
        rw [makeDestPath_eq cfg pat allow root q hr hp] at h
        cases hA : hasNullMarker q && !allow with
        | true => simp [hA] at h
        | false =>
          cases hB : startsDotDot (relpathComps q root) with
          | true => simp [hA, hB] at h
          | false =>
            simp only [hA, hB, Bool.false_eq_true, if_false] at h
            have hqp : q = p := by simpa using h
            subst hqp
            exact ⟨within_of_not_startsDotDot hB, rfl⟩
    · intro hp hout hnull
      rw [makeDestPath_eq cfg pat allow root p hr hp, hnull]
      simp [startsDotDot_of_not_within hout]
    · intro hp hdd hnull
      rw [makeDestPath_eq cfg pat allow root p hr hp, hnull, hdd]
      simp

/-- C1 counterexample to the claim as stated: the pattern `/..evil` expands
and normalizes to the absolute path `/r/..evil`, which is nested under
the project root `/r` (it is the direct child named `..evil`), yet
`__MakeSrcPath` aborts with the path-escape error instead of returning
the contained path — because `os.path.relpath` gives the string `..evil`
and the guard is the textual `startswith("..")`.
-/
theorem c1_contained_path_rejected :
    makeSrcPathParts cfg0 "/..evil" = .ok ["r", "..evil"]
  ∧ cfg0.absProjectRoot <+: ["r", "..evil"]
  ∧ makeSrcPath cfg0 "/..evil" false = .error .pathEscape :=
  ⟨rfl, ⟨["..evil"], rfl⟩, rfl⟩

/-- Witness for C1 at a concrete accepted input. -/
theorem c1_containment_amended_witness :
    makeSrcPath cfg0 "Parts" false = .ok ["r", "Source", "Parts"] :=
  (c1_containment_amended cfg0 "Parts" false ["r", "Source", "Parts"] []).2.2.1
    rfl rfl rfl

/-! ## C4 / C9: macro cycle detection -/

/-- The cyclic configuration of C4: `A` expands to `{B}` and `B` to
`{A}`. -/
def attrsCyc : Attrs := [("A", "{B}"), ("B", "{A}")]

/-- C4.  On the cyclic configuration the recursive substitution terminates
with the cycle error from either starting macro: the result is the cycle
error for *every* recursion budget of at least 3, i.e. the Python
recursion bottoms out after visiting `A`, `B` and re-encountering the
in-flight name, and never loops indefinitely.
-/
theorem c4_macro_cycle_terminates (f : Nat) :
    parseMacros attrsCyc [] "{A}".toList (f + 3) = .error (.cycle "A")
  ∧ parseMacros attrsCyc [] "{B}".toList (f + 3) = .error (.cycle "B") :=
  ⟨rfl, rfl⟩

/-- The configuration of C9: a single, acyclic, plain-valued macro. -/
def attrsPkg : Attrs := [("PACKAGE_NAME", "KAS")]

/-- C9.  A template referencing the same macro at two separate positions —
`{PACKAGE_NAME}/{PACKAGE_NAME}.dll`, where the macro's value `KAS`
contains no macro reference at all — aborts with the recursive-macro
(cycle) error: the `parents` list is appended to on every lookup and
never popped, so the second occurrence of the already-resolved name is
treated as a cycle (again at every recursion budget of at least 2).
-/
theorem c9_repeated_macro_reference_cycle :
    attrsPkg.lookup "PACKAGE_NAME" = some "KAS"
  ∧ findMacroRef "KAS".toList = none
  ∧ ∀ f : Nat, parseMacros attrsPkg [] "{PACKAGE_NAME}/{PACKAGE_NAME}.dll".toList (f + 2)
      = .error (.cycle "PACKAGE_NAME") :=
  ⟨rfl, rfl, fun _ => rfl⟩

/-! ## C5: the optional-pattern-with-zero-matches entry -/

/-- C5 (code bug).  A mapping entry whose only pattern is the optional
`?nothing/*` and whose glob matches nothing: the copy loop never runs, so
the Python local `source` is unbound, and the logging line
the skip-empty-folder print of the unbound `source` raises `NameError` — the entry
aborts instead of completing with an informational skip.  The second
conjunct shows the same entry completes silently when an earlier entry of
the same run already bound `source`, confirming the unbound local as the
sole cause.
-/
theorem c5_optional_empty_entry_eval :
    processEntry cfg0 fs0 none ("Empty", ["?nothing/*"])
      = (fs0, none, [], some .nameError)
  ∧ processEntry cfg0 fs0 (some ["x"]) ("Empty", ["?nothing/*"])
      = (fs0, some ["x"], [], none) :=
  ⟨rfl, rfl⟩

/-! ## C7: unknown vs. unset macros -/

/-- A well-formed macro key for the builder's configuration: non-empty,
made of word characters, not starting with a digit (a strict subset of
what the regex `\D\w*` accepts, covering every key the builder uses). -/
def isMacroKey (k : String) : Bool :=
  match k.toList with
  | [] => false
  | c :: cs => !c.isDigit && isWordChar c && cs.all isWordChar

theorem dropWhile_append_of_all {p : Char → Bool} :
    ∀ {l r : List Char}, (∀ c ∈ l, p c = true) →
      (l ++ r).dropWhile p = r.dropWhile p
  | [], _, _ => rfl
  | c :: cs, r, h => by
    simp only [List.cons_append, List.dropWhile_cons, h c (by simp), if_true]
    exact dropWhile_append_of_all (fun x hx => h x (by simp [hx]))

theorem takeWhile_append_of_all {p : Char → Bool} :
    ∀ {l r : List Char}, (∀ c ∈ l, p c = true) →
      (l ++ r).takeWhile p = l ++ r.takeWhile p
  | [], _, _ => rfl
  | c :: cs, r, h => by
    simp only [List.cons_append, List.takeWhile_cons, h c (by simp), if_true]
    rw [takeWhile_append_of_all (fun x hx => h x (by simp [hx]))]

theorem isWordChar_ne_lbrace {c : Char} (h : isWordChar c = true) : c ≠ lbrace := by
  rintro rfl
  simp [isWordChar, lbrace, Char.isAlpha, Char.isDigit, Char.isUpper, Char.isLower] at h

/-- A character list without an opening brace contains no macro
reference. -/
theorem findMacroRef_no_lbrace :
    ∀ {l : List Char}, (∀ c ∈ l, c ≠ lbrace) → findMacroRef l = none
  | [], _ => rfl
  | c :: cs, h => by
    have hrec := findMacroRef_no_lbrace (l := cs) (fun x hx => h x (by simp [hx]))
    rw [findMacroRef, if_neg (h c (by simp)), hrec]

theorem isMacroKey_shape {key : String} (h : isMacroKey key = true) :
    ∃ c cs, key.toList = c :: cs ∧ c.isDigit = false ∧ isWordChar c = true
      ∧ (∀ x ∈ cs, isWordChar x = true) := by
  unfold isMacroKey at h
  cases hk : key.toList with
  | nil => rw [hk] at h; simp at h
  | cons c cs =>
    rw [hk] at h
    simp only [Bool.and_eq_true, Bool.not_eq_true', List.all_eq_true] at h
    exact ⟨c, cs, rfl, h.1.1, h.1.2, fun x hx => h.2 x hx⟩

theorem matchKeyAfterBrace_key {key : String} (h : isMacroKey key = true) :
    matchKeyAfterBrace (key.toList ++ [rbrace]) = some (key, []) := by
  obtain ⟨c, cs, hk, hd, _, hall⟩ := isMacroKey_shape h
  rw [hk]
  have hrb : isWordChar rbrace = false := by decide
  simp only [List.cons_append, matchKeyAfterBrace, hd, Bool.false_eq_true, if_false]
  rw [dropWhile_append_of_all hall, takeWhile_append_of_all hall]
  simp only [List.dropWhile_cons, List.takeWhile_cons, hrb, Bool.false_eq_true,
    if_false, if_pos rfl, List.append_nil]
  have hmk : String.mk (c :: cs) = key := by
    rw [← hk]
    rfl
  simp [hmk]


/-- Unfolding step of `findMacroRef` at an opening brace. -/
theorem findMacroRef_cons_lbrace (l : List Char) :
    findMacroRef (lbrace :: l) =
      match matchKeyAfterBrace l with
      | some (key, tail) => some ([], key, tail)
      | none =>
        match findMacroRef l with
        | some (pre, key, post) => some (lbrace :: pre, key, post)
        | none => none := by
  rw [findMacroRef, if_pos rfl]

/-- `findMacroRef` on a single braced reference `{key}`. -/
theorem findMacroRef_braced {key : String} (h : isMacroKey key = true) :
    findMacroRef (braced key).toList = some ([], key, []) := by
  have hb : (braced key).toList = lbrace :: (key.toList ++ [rbrace]) := rfl
  rw [hb, findMacroRef_cons_lbrace, matchKeyAfterBrace_key h]

/-- `findMacroRef` fails on the `{key=>NULL}` sentinel: the candidate
match is broken by the `=` character and no second brace opens. -/
theorem findMacroRef_sentinel {key : String} (h : isMacroKey key = true) :
    findMacroRef (sentinel key).toList = none := by
  obtain ⟨c, cs, hk, hd, hw, hall⟩ := isMacroKey_shape h
  have hs : (sentinel key).toList
      = lbrace :: (key.toList ++ ("=>NULL".toList ++ [rbrace])) := by
    simp [sentinel]
  have hdw : ("=>NULL".toList ++ [rbrace]).dropWhile isWordChar
      = '=' :: (">NULL".toList ++ [rbrace]) := by decide
  have hmk : matchKeyAfterBrace (key.toList ++ ("=>NULL".toList ++ [rbrace])) = none := by
    rw [hk]
    simp only [List.cons_append, matchKeyAfterBrace, hd, Bool.false_eq_true, if_false]
    rw [dropWhile_append_of_all hall, hdw]
    simp only [if_neg (show ¬('=' = rbrace) by decide)]
  have hnb : ∀ x ∈ key.toList ++ ("=>NULL".toList ++ [rbrace]), x ≠ lbrace := by
    intro x hx
    rcases List.mem_append.mp hx with hx1 | hx2
    · rw [hk] at hx1
      rcases List.mem_cons.mp hx1 with rfl | hmem
      · exact isWordChar_ne_lbrace hw
      · exact isWordChar_ne_lbrace (hall _ hmem)
    · have hc : ∀ y ∈ "=>NULL".toList ++ [rbrace], y ≠ lbrace := by decide
      exact hc x hx2
  rw [hs, findMacroRef_cons_lbrace, hmk, findMacroRef_no_lbrace hnb]

/-- One-step unfolding of `parseMacros` with positive fuel. -/
theorem parseMacros_succ (attrs : Attrs) (parents : List String) (s : List Char) (m : Nat) :
    parseMacros attrs parents s (m + 1) =
      (match findMacroRef s with
       | none => .ok (s, parents)
       | some (pre, key, post) =>
         if parents.contains key then .error (.cycle key)
         else if strPre "__" key then .error (.restricted key)
         else
           match attrs.lookup key with
           | none => .error (.unknown key)
           | some v =>
             let value := if v = "" then sentinel key else v
             match parseMacros attrs (parents ++ [key]) value.toList m with
             | .error e => .error e
             | .ok (mid, parents2) =>
               match parseMacros attrs parents2 post m with
               | .error e => .error e
               | .ok (rest, parents3) => .ok (pre ++ mid ++ rest, parents3)) := rfl

/-- C7 counterexample to the claim as stated: referencing a macro name that
is not an attribute at all (`hasattr` fails) is fatal even when the
caller allows unresolved placeholders — `get_macro_value` exits before
the sentinel mechanism can apply, so the unknown macro is never rewritten
to a sentinel and the optional pattern is never skipped.
-/
theorem c7_unknown_macro_fatal_despite_allow :
    cfg0.attrs.lookup "NO_SUCH_KEY" = none
  ∧ makeSrcPath cfg0 (braced "NO_SUCH_KEY") true
      = .error (.macroErr (.unknown "NO_SUCH_KEY"))
  ∧ makeDestPath cfg0 (braced "NO_SUCH_KEY") true
      = .error (.macroErr (.unknown "NO_SUCH_KEY")) :=
  ⟨rfl, rfl, rfl⟩

/-- Unfolding of one pattern-loop iteration on an explicit first
character. -/
theorem processPattern_cons (cfg : Config) (fs : FS) (st : PatState)
    (c : Char) (rest : List Char) :
    processPattern cfg fs st (String.mk (c :: rest)) =
      (if c = '?' then
        (makeSrcPath cfg (String.mk rest) true) >>= fun pat =>
          if hasNullMarker pat then pure st
          else pure { st with copySources := some (st.copySources.getD [] ++ globFS fs pat) }
      else if c = '-' then
        pure { st with dropPatterns := st.dropPatterns ++ [String.mk rest] }
      else
        (makeSrcPath cfg (String.mk (c :: rest)) false) >>= fun pat =>
          if (globFS fs pat).isEmpty then .error (.noMatch pat)
          else pure { st with copySources := some (st.copySources.getD [] ++ globFS fs pat) }) :=
  rfl

/-- C7 (amended).  (1) Referencing an *unknown* macro name (no such
attribute) is always fatal with the unknown-key error, regardless of
`allow_unresolved`.  (2) Referencing an *unset* macro (attribute present
but falsy) is rewritten to the distinguishable sentinel `{key=>NULL}`
embedding the macro name.  (3) A resolved path carrying the sentinel is
fatal when unresolved placeholders are disallowed.  (4) An optional `?`
pattern whose resolved value carries the sentinel is skipped — that
single pattern only — rather than aborting the run.
-/
theorem c7_unresolved_macro_amended (cfg : Config) (key : String)
    (hkey : isMacroKey key = true) (hpre : strPre "__" key = false) :
    (1 ≤ cfg.fuel → cfg.attrs.lookup key = none →
        parseM cfg (braced key) = .error (.macroErr (.unknown key))
      ∧ ∀ allow, makeSrcPath cfg (braced key) allow
          = .error (.macroErr (.unknown key)))
  ∧ (2 ≤ cfg.fuel → cfg.attrs.lookup key = some "" →
        parseM cfg (braced key) = .ok (sentinel key))
  ∧ (∀ pat p, makeSrcPathParts cfg pat = .ok p → hasNullMarker p = true →
        makeSrcPath cfg pat false = .error .unresolvedPath)
  ∧ (∀ fs st rest pat, makeSrcPath cfg (String.mk rest) true = .ok pat →
        hasNullMarker pat = true →
        processPattern cfg fs st (String.mk ('?' :: rest)) = .ok st
      ∧ ∀ ps, processPatternList cfg fs st (String.mk ('?' :: rest) :: ps)
          = processPatternList cfg fs st ps) := by
  refine ⟨?_, ?_, ?_, ?_⟩
  · intro hf hnone
    have hparse : parseM cfg (braced key) = .error (.macroErr (.unknown key)) := by
      obtain ⟨m, hm⟩ : ∃ m, cfg.fuel = m + 1 := by
        cases hfu : cfg.fuel with
        | zero => omega
        | succ m => exact ⟨m, rfl⟩
      unfold parseM
      rw [hm, parseMacros_succ, findMacroRef_braced hkey]
      simp [hpre, hnone]
    refine ⟨hparse, fun allow => ?_⟩
    have hparts : makeSrcPathParts cfg (braced key)
        = .error (.macroErr (.unknown key)) := by
      unfold makeSrcPathParts
      rw [hparse]
      rfl
    unfold makeSrcPath
    rw [hparts]
    rfl
  · intro hf hsome
    obtain ⟨m, hm⟩ : ∃ m, cfg.fuel = m + 2 := by
      cases hfu : cfg.fuel with
      | zero => omega
      | succ n =>
        cases n with
        | zero => omega
        | succ m => exact ⟨m, rfl⟩
    unfold parseM
    rw [hm, show m + 2 = (m + 1) + 1 from rfl]
    have hnil : findMacroRef ([] : List Char) = none := rfl
    simp only [parseMacros_succ, findMacroRef_braced hkey, findMacroRef_sentinel hkey,
      hnil, hsome, hpre, List.contains, List.elem, Bool.false_eq_true, if_false,
      eq_self_iff_true, if_true, List.nil_append, List.append_nil]
    rfl
  · intro pat p hp hnull
    rw [makeSrcPath_eq cfg pat false p hp]
    simp [hnull]
  · intro fs st rest pat hres hnull
    have hstep : processPattern cfg fs st (String.mk ('?' :: rest)) = .ok st := by
      rw [processPattern_cons, if_pos rfl, hres, except_bind_ok, if_pos hnull]
      rfl
    refine ⟨hstep, fun ps => ?_⟩
    rw [processPatternList, hstep]
    rfl

/-- A builder in which the `ARCHIVE_DEST` attribute exists but is unset
(falsy), as in the class defaults. -/
def cfgUnset : Config := { cfg0 with attrs := attrs0 ++ [("ARCHIVE_DEST", "")] }

/-- Witness for C7 at concrete inputs: the unset macro resolves to its
sentinel, the unknown macro is fatal, and the optional pattern carrying
the sentinel is skipped. -/
theorem c7_unresolved_macro_amended_witness :
    parseM cfgUnset (braced "ARCHIVE_DEST") = .ok (sentinel "ARCHIVE_DEST")
  ∧ parseM cfg0 (braced "NO_SUCH_KEY") = .error (.macroErr (.unknown "NO_SUCH_KEY"))
  ∧ processPattern cfgUnset fs0 ⟨none, []⟩
      (String.mk ('?' :: (braced "ARCHIVE_DEST").toList)) = .ok ⟨none, []⟩ :=
  ⟨(c7_unresolved_macro_amended cfgUnset "ARCHIVE_DEST" (by decide) (by decide)).2.1
      (by decide) rfl,
   ((c7_unresolved_macro_amended cfg0 "NO_SUCH_KEY" (by decide) (by decide)).1
      (by decide) rfl).1,
   ((c7_unresolved_macro_amended cfgUnset "ARCHIVE_DEST" (by decide) (by decide)).2.2.2
      fs0 ⟨none, []⟩ (braced "ARCHIVE_DEST").toList
      ["r", "Source", sentinel "ARCHIVE_DEST"] rfl rfl).1⟩

/-! ## C6 / C10: the pattern loop -/

theorem processPatternList_cons (cfg : Config) (fs : FS) (st : PatState)
    (p : String) (ps : List String) :
    processPatternList cfg fs st (p :: ps) =
      match processPattern cfg fs st p with
      | .ok st2 => processPatternList cfg fs st2 ps
      | .error e => .error e := by
  rw [processPatternList]
  cases processPattern cfg fs st p <;> rfl

theorem processPatternList_append (cfg : Config) (fs : FS) :
    ∀ (a : List String) (st : PatState) (b : List String),
      processPatternList cfg fs st (a ++ b) =
        match processPatternList cfg fs st a with
        | .ok st2 => processPatternList cfg fs st2 b
        | .error e => .error e
  | [], st, b => rfl
  | p :: ps, st, b => by
    rw [List.cons_append, processPatternList, processPatternList]
    cases hp : processPattern cfg fs st p with
    | error e => rfl
    | ok st1 =>
      simp only [except_bind_ok]
      exact processPatternList_append cfg fs ps st1 b

/-- C6.  A plain (unprefixed) source pattern whose glob matches zero
filesystem entries aborts the run with the no-match error carrying the
resolved pattern (the Python message names the pattern and hints at the
`?` prefix): the failing pattern stops the pattern loop, the remaining
patterns of the entry are never examined, the whole entry yields the
fatal error, and no filesystem action is taken.
-/
theorem c6_plain_no_match_fatal (cfg : Config) (fs : FS) (sp : String)
    (c : Char) (rest : List Char) (pat : List String)
    (hc : sp.toList = c :: rest) (h1 : c ≠ '?') (h2 : c ≠ '-')
    (h3 : makeSrcPath cfg sp false = .ok pat) (h4 : globFS fs pat = []) :
    (∀ st, processPattern cfg fs st sp = .error (.noMatch pat))
  ∧ (∀ st0 st pre ps, processPatternList cfg fs st0 pre = .ok st →
      processPatternList cfg fs st0 (pre ++ sp :: ps) = .error (.noMatch pat))
  ∧ (∀ sv key destP pre ps st, makeDestPath cfg key false = .ok destP →
      processPatternList cfg fs ⟨none, []⟩ pre = .ok st →
      processEntry cfg fs sv (key, pre ++ sp :: ps)
        = (fs, sv, [], some (.noMatch pat))) := by
  have hsp : sp = String.mk (c :: rest) := by
    cases sp with
    | mk d => exact congrArg String.mk hc
  have hone : ∀ st, processPattern cfg fs st sp = .error (.noMatch pat) := by
    intro st
    rw [hsp, processPattern_cons, if_neg h1, if_neg h2, hsp.symm, h3, except_bind_ok, h4]
    rfl
  have hlist : ∀ st0 st pre ps, processPatternList cfg fs st0 pre = .ok st →
      processPatternList cfg fs st0 (pre ++ sp :: ps) = .error (.noMatch pat) := by
    intro st0 st pre ps hpre
    have hcons : processPatternList cfg fs st (sp :: ps) = .error (.noMatch pat) := by
      rw [processPatternList_cons, hone st]
    rw [processPatternList_append, hpre]
    exact hcons
  refine ⟨hone, hlist, ?_⟩
  intro sv key destP pre ps st hd hpre
  unfold processEntry
  rw [hd, hlist ⟨none, []⟩ st pre ps hpre]

/-- `parseM` only fails with macro errors. -/
theorem parseM_error_shape {cfg : Config} {s : String} {e : BErr}
    (h : parseM cfg s = .error e) : ∃ me, e = BErr.macroErr me := by
  unfold parseM at h
  cases hp : parseMacros cfg.attrs [] s.toList cfg.fuel with
  | error me =>
    rw [hp] at h
    exact ⟨me, by simpa using h.symm⟩
  | ok v =>
    rw [hp] at h
    cases v
    simp at h

/-- `getattr` only fails with the missing-attribute error. -/
theorem getAttrStr_error_shape {cfg : Config} {n : String} {e : BErr}
    (h : getAttrStr cfg n = .error e) : ∃ k, e = BErr.attrMissing k := by
  unfold getAttrStr at h
  cases hp : cfg.attrs.lookup n with
  | none => rw [hp] at h; exact ⟨n, by simpa using h.symm⟩
  | some v => rw [hp] at h; simp at h

/-- The source resolver only fails with macro, attribute, unresolved-path
or path-escape errors. -/
theorem makeSrcPath_error_shape {cfg : Config} {pat : String} {allow : Bool} {e : BErr}
    (h : makeSrcPath cfg pat allow = .error e) :
    (∃ me, e = BErr.macroErr me) ∨ (∃ k, e = BErr.attrMissing k)
      ∨ e = BErr.unresolvedPath ∨ e = BErr.pathEscape := by
  have hparts : ∀ e2, makeSrcPathParts cfg pat = .error e2 →
      (∃ me, e2 = BErr.macroErr me) ∨ (∃ k, e2 = BErr.attrMissing k) := by
    intro e2 h2
    unfold makeSrcPathParts at h2
    cases hp : parseM cfg pat with
    | error e3 =>
      rw [hp] at h2
      simp only [except_bind_error, Except.error.injEq] at h2
      subst h2
      exact .inl (parseM_error_shape hp)
    | ok rel =>
      rw [hp, except_bind_ok] at h2
      split at h2
      · cases ha : getAttrStr cfg "SOURCE" with
        | error e4 =>
          rw [ha] at h2
          simp only [except_bind_error, Except.error.injEq] at h2
          subst h2
          exact .inr (getAttrStr_error_shape ha)
        | ok src =>
          rw [ha, except_bind_ok] at h2
          cases hq : parseM cfg src with
          | error e5 =>
            rw [hq] at h2
            simp only [except_bind_error, Except.error.injEq] at h2
            subst h2
            exact .inl (parseM_error_shape hq)
          | ok srcP =>
            rw [hq] at h2
            simp [except_bind_ok, pure, Except.pure] at h2
      · simp [except_bind_ok, pure, Except.pure] at h2
  unfold makeSrcPath at h
  cases hp : makeSrcPathParts cfg pat with
  | error e2 =>
    rw [hp] at h
    simp only [except_bind_error, Except.error.injEq] at h
    subst h
    rcases hparts e2 hp with h1 | h1
    · exact .inl h1
    · exact .inr (.inl h1)
  | ok p =>
    rw [hp, except_bind_ok] at h
    split at h
    · simp only [Except.error.injEq] at h
      subst h
      exact .inr (.inr (.inl rfl))
    · split at h
      · simp only [Except.error.injEq] at h
        subst h
        exact .inr (.inr (.inr rfl))
      · simp [pure, Except.pure] at h

/-- C10.  The modifier classification `src_pattern[0]` reads the first
character of the raw pattern without a length guard: an empty source
pattern makes the pattern loop fail with the out-of-range indexing error
(Python `IndexError`), not with any of the descriptive fatal errors —
and, conversely, no non-empty pattern can produce the indexing error, so
well-definedness of the classification step is exactly non-emptiness.
-/
theorem c10_empty_pattern_index_error (cfg : Config) (fs : FS) :
    (∀ st ps, processPatternList cfg fs st ("" :: ps) = .error .indexError)
  ∧ (∀ st0 st pre ps, processPatternList cfg fs st0 pre = .ok st →
      processPatternList cfg fs st0 (pre ++ "" :: ps) = .error .indexError)
  ∧ (∀ st sp, sp ≠ "" → processPattern cfg fs st sp ≠ .error .indexError) := by
  have hone : ∀ st, processPattern cfg fs st "" = .error .indexError := fun _ => rfl
  have hfirst : ∀ st ps, processPatternList cfg fs st ("" :: ps) = .error .indexError := by
    intro st ps
    rw [processPatternList, hone st, except_bind_error]
  refine ⟨hfirst, ?_, ?_⟩
  · intro st0 st pre ps hpre
    rw [processPatternList_append, hpre]
    exact hfirst st ps
  · intro st sp hne h
    have hc : ∃ c rest, sp.toList = c :: rest := by
      cases hl : sp.toList with
      | nil =>
        exact absurd (by cases sp with | mk d => simpa using congrArg String.mk hl) hne
      | cons c rest => exact ⟨c, rest, rfl⟩
    obtain ⟨c, rest, hl⟩ := hc
    have hsp : sp = String.mk (c :: rest) := by
      cases sp with
      | mk d => exact congrArg String.mk hl
    rw [hsp, processPattern_cons] at h
    by_cases hq : c = '?'
    · rw [if_pos hq] at h
      cases hm : makeSrcPath cfg (String.mk rest) true with
      | error e =>
        rw [hm, except_bind_error] at h
        rcases makeSrcPath_error_shape hm with ⟨me, rfl⟩ | ⟨k, rfl⟩ | rfl | rfl <;> simp_all
      | ok pat =>
        rw [hm, except_bind_ok] at h
        split at h <;> simp [pure, Except.pure] at h
    · rw [if_neg hq] at h
      by_cases hd : c = '-'
      · rw [if_pos hd] at h
        simp [pure, Except.pure] at h
      · rw [if_neg hd] at h
        cases hm : makeSrcPath cfg (String.mk (c :: rest)) false with
        | error e =>
          rw [hm, except_bind_error] at h
          rcases makeSrcPath_error_shape hm with ⟨me, rfl⟩ | ⟨k, rfl⟩ | rfl | rfl <;> simp_all
        | ok pat =>
          rw [hm, except_bind_ok] at h
          split at h <;> simp [pure, Except.pure] at h

/-- Witness for C6 at a concrete input. -/
theorem c6_plain_no_match_fatal_witness :
    processPattern cfg0 fs0 ⟨none, []⟩ "LICENSE.md"
      = .error (.noMatch ["r", "Source", "LICENSE.md"]) :=
  (c6_plain_no_match_fatal cfg0 fs0 "LICENSE.md" 'L' "ICENSE.md".toList
    ["r", "Source", "LICENSE.md"] rfl (by decide) (by decide) rfl rfl).1 ⟨none, []⟩

/-- Witness for C10 at a concrete input. -/
theorem c10_empty_pattern_index_error_witness :
    processPatternList cfg0 fs0 ⟨none, []⟩ (["-junk"] ++ "" :: [])
      = .error .indexError :=
  (c10_empty_pattern_index_error cfg0 fs0).2.1 ⟨none, []⟩ ⟨none, ["junk"]⟩
    ["-junk"] [] rfl

/-! ## C3: processing order of the mapping entries -/

theorem charCmp_lt_iff {a b : Char} : charCmp a b = .lt ↔ a < b := by
  unfold charCmp
  split_ifs with h1 h2
  · exact iff_of_true rfl h1
  · exact iff_of_false (by simp) h1
  · exact iff_of_false (by simp) h1

theorem charCmp_gt_iff {a b : Char} : charCmp a b = .gt ↔ b < a := by
  unfold charCmp
  split_ifs with h1 h2
  · exact iff_of_false (by simp) (asymm h1)
  · exact iff_of_true rfl h2
  · exact iff_of_false (by simp) h2

theorem charCmp_eq_iff {a b : Char} : charCmp a b = .eq ↔ a = b := by
  unfold charCmp
  split_ifs with h1 h2
  · exact iff_of_false (by simp) (ne_of_lt h1)
  · exact iff_of_false (by simp) (Ne.symm (ne_of_lt h2))
  · exact iff_of_true rfl (le_antisymm (not_lt.mp h2) (not_lt.mp h1))

theorem lexCmp_gt_iff : ∀ {a b : List Char}, lexCmp a b = .gt ↔ List.Lex (· < ·) b a
  | [], [] => by
    simp only [lexCmp]
    exact iff_of_false (by simp) (List.Lex.not_nil_right _ _)
  | [], _ :: _ => by
    simp only [lexCmp]
    exact iff_of_false (by simp) (List.Lex.not_nil_right _ _)
  | _ :: _, [] => iff_of_true rfl List.Lex.nil
  | a :: as, b :: bs => by
    simp only [lexCmp]
    rcases lt_trichotomy a b with h | h | h
    · rw [charCmp_lt_iff.mpr h]
      refine iff_of_false (by simp) fun hL => ?_
      cases hL with
      | cons h2 => exact absurd h (lt_irrefl _)
      | rel h2 => exact absurd h2 (asymm h)
    · subst h
      rw [charCmp_eq_iff.mpr rfl]
      rw [lexCmp_gt_iff]
      exact (List.Lex.cons_iff).symm
    · rw [charCmp_gt_iff.mpr h]
      exact iff_of_true rfl (List.Lex.rel h)

/-- The ordering the spec describes: rooted keys (leading separator)
strictly precede non-rooted keys; within each of the two groups, keys are
in (non-strict) lexicographic order by character code. -/
def specLe (x y : String) : Prop :=
  (startsSlash x = true ∧ startsSlash y = false)
  ∨ (startsSlash x = startsSlash y ∧ ¬ List.Lex (· < ·) y.toList x.toList)

/-- The comparator of the code induces exactly the spec's order. -/
theorem keyLe_iff_specLe (x y : String) : keyLe x y ↔ specLe x y := by
  cases hx : startsSlash x <;> cases hy : startsSlash y <;>
    simp [keyLe, targetCmp, pyCmp, specLe, hx, hy, lexCmp_gt_iff]

theorem keyLe_total (x y : String) : keyLe x y ∨ keyLe y x := by
  rw [keyLe_iff_specLe, keyLe_iff_specLe]
  by_cases hL : List.Lex (· < ·) y.toList x.toList
  · cases hx : startsSlash x <;> cases hy : startsSlash y
    · exact .inr (.inr ⟨hy.trans hx.symm, asymm hL⟩)
    · exact .inr (.inl ⟨hy, hx⟩)
    · exact .inl (.inl ⟨hx, hy⟩)
    · exact .inr (.inr ⟨hy.trans hx.symm, asymm hL⟩)
  · cases hx : startsSlash x <;> cases hy : startsSlash y
    · exact .inl (.inr ⟨hx.trans hy.symm, hL⟩)
    · exact .inr (.inl ⟨hy, hx⟩)
    · exact .inl (.inl ⟨hx, hy⟩)
    · exact .inl (.inr ⟨hx.trans hy.symm, hL⟩)

theorem keyLe_trans {x y z : String} (h1 : keyLe x y) (h2 : keyLe y z) :
    keyLe x z := by
  rw [keyLe_iff_specLe] at h1 h2 ⊢
  rcases h1 with ⟨hx, hy⟩ | ⟨hxy, hL1⟩
  · rcases h2 with ⟨hy2, hz⟩ | ⟨hyz, hL2⟩
    · rw [hy] at hy2
      exact absurd hy2 (by simp)
    · exact .inl ⟨hx, hyz ▸ hy⟩
  · rcases h2 with ⟨hy2, hz⟩ | ⟨hyz, hL2⟩
    · exact .inl ⟨hxy.trans hy2, hz⟩
    · refine .inr ⟨hxy.trans hyz, fun hzx => ?_⟩
      have htri := (List.Lex.isTrichotomous ((· < ·) : Char → Char → Prop)).trichotomous
      rcases htri x.toList y.toList with hxy2 | hxy2 | hxy2
      · exact hL2 (Trans.trans hzx hxy2)
      · exact hL2 (hxy2 ▸ hzx)
      · exact hL1 hxy2

instance : IsTotal (String × List String) entryLe :=
  ⟨fun a b => keyLe_total a.1 b.1⟩

instance : IsTrans (String × List String) entryLe :=
  ⟨fun _ _ _ h1 h2 => keyLe_trans h1 h2⟩

/-- C3.  `__Step_MakeFoldersStructure` sorts the mapping entries with
`target_cmp_fn` applied to the destination keys before processing them:
the resulting key sequence is sorted by the spec's order (every key
beginning with the path separator precedes every key that does not;
within each of the two groups, lexicographic order by character code),
the sorted entries are a permutation of the mapping, the code comparator
coincides with the spec order, and the spec's four-key example sorts to
exactly the stated sequence.
-/
theorem c3_entry_processing_order :
    (∀ l : List (String × List String),
        List.Sorted specLe ((sortEntries l).map Prod.fst) ∧ List.Perm (sortEntries l) l)
  ∧ (∀ x y, keyLe x y ↔ specLe x y)
  ∧ (sortEntries [("/Shared", []), ("Local/B", []), ("/Shared/Sub", []),
        ("Local/A", [])]).map Prod.fst
      = ["/Shared", "/Shared/Sub", "Local/A", "Local/B"] := by
  refine ⟨fun l => ⟨?_, List.perm_insertionSort entryLe l⟩,
    keyLe_iff_specLe, rfl⟩
  have hs : List.Sorted entryLe (sortEntries l) :=
    List.sorted_insertionSort entryLe l
  exact List.Pairwise.map Prod.fst
    (fun a b hab => (keyLe_iff_specLe a.1 b.1).mp hab) hs

/-! ## C8: lazy folder creation -/

/-- Is the action an actual copy (file or folder)? -/
def isCopyAct : FsAct → Bool
  | .copyFile _ _ => true
  | .copyTree _ _ => true
  | _ => false

/-- Is the action a folder creation via `os.makedirs`? -/
def isMkdirsAct : FsAct → Bool
  | .mkdirs _ => true
  | _ => false

/-- Lazy-creation discipline of an action trace: every `makedirs` happens
immediately before an actual file copy (the folder is created only at the
moment the copy into it happens). -/
def lazyCreation : List FsAct → Bool
  | [] => true
  | .mkdirs _ :: rest =>
    (match rest with
     | FsAct.copyFile _ _ :: _ => true
     | _ => false) && lazyCreation rest
  | _ :: rest => lazyCreation rest

/-- The trace does not end in a dangling `makedirs`. -/
def noTrailingMk (l : List FsAct) : Bool :=
  match l.getLast? with
  | some (FsAct.mkdirs _) => false
  | _ => true

theorem lazyCreation_cons_of_not_mkdirs {x : FsAct} (hx : isMkdirsAct x = false)
    (rest : List FsAct) : lazyCreation (x :: rest) = lazyCreation rest := by
  cases x <;> simp [lazyCreation] <;> simp [isMkdirsAct] at hx

theorem noTrailingMk_cons_cons (x y : FsAct) (t : List FsAct) :
    noTrailingMk (x :: y :: t) = noTrailingMk (y :: t) := by
  simp [noTrailingMk, List.getLast?_cons_cons]

theorem noTrailingMk_tail {x : FsAct} {xs : List FsAct}
    (h : noTrailingMk (x :: xs) = true) (hne : xs ≠ []) : noTrailingMk xs = true := by
  cases xs with
  | nil => exact absurd rfl hne
  | cons y ys => rw [← noTrailingMk_cons_cons x y ys]; exact h

theorem lazyCreation_append {b : List FsAct} (hb : lazyCreation b = true) :
    ∀ {a : List FsAct}, lazyCreation a = true → noTrailingMk a = true →
      lazyCreation (a ++ b) = true := by
  intro a
  induction a with
  | nil => intro _ _; exact hb
  | cons x xs ih =>
    intro ha hn
    cases hx : isMkdirsAct x with
    | false =>
      rw [List.cons_append, lazyCreation_cons_of_not_mkdirs hx]
      rw [lazyCreation_cons_of_not_mkdirs hx] at ha
      cases xs with
      | nil => exact hb
      | cons y ys => exact ih ha (noTrailingMk_tail hn (by simp))
    | true =>
      cases x with
      | mkdirs d =>
        cases xs with
        | nil =>
          simp [lazyCreation] at ha
        | cons y ys =>
          cases y with
          | copyFile s d2 =>
            simp only [lazyCreation, Bool.true_and] at ha
            have hrest := ih ha (noTrailingMk_tail hn (by simp))
            show lazyCreation (FsAct.mkdirs d :: FsAct.copyFile s d2 :: (ys ++ b)) = true
            simp only [lazyCreation, Bool.true_and]
            exact hrest
          | mkdirs d2 => simp [lazyCreation] at ha
          | copyTree s d2 => simp [lazyCreation] at ha
          | unlink p => simp [lazyCreation] at ha
          | rmtree p => simp [lazyCreation] at ha
      | copyFile s d => simp [isMkdirsAct] at hx
      | copyTree s d => simp [isMkdirsAct] at hx
      | unlink p => simp [isMkdirsAct] at hx
      | rmtree p => simp [isMkdirsAct] at hx

theorem lazyCreation_of_no_mkdirs :
    ∀ {l : List FsAct}, (∀ a ∈ l, isMkdirsAct a = false) →
      lazyCreation l = true ∧ noTrailingMk l = true
  | [], _ => ⟨rfl, rfl⟩
  | x :: xs, h => by
    have hx := h x (by simp)
    have hrec := lazyCreation_of_no_mkdirs (l := xs) (fun a ha => h a (by simp [ha]))
    refine ⟨by rw [lazyCreation_cons_of_not_mkdirs hx]; exact hrec.1, ?_⟩
    cases xs with
    | nil =>
      cases x <;> simp [noTrailingMk] <;> simp [isMkdirsAct] at hx
    | cons y ys =>
      rw [noTrailingMk_cons_cons]
      exact hrec.2

/-- Shape of one successful copy: the trace is lazy, ends in the copy
action, and contains an actual copy. -/
theorem osSafeCopy_ok_shape {cfg : Config} {fs : FS} {src destP : List String}
    {fs1 : FS} {as : List FsAct}
    (h : osSafeCopyToRelease cfg fs src destP = .ok (fs1, as)) :
    lazyCreation as = true ∧ noTrailingMk as = true
      ∧ ∃ a ∈ as, isCopyAct a = true := by
  unfold osSafeCopyToRelease at h
  cases h1 : checkChroot cfg (pathToString src) none with
  | error e => rw [h1, except_bind_error] at h; exact absurd h (by simp)
  | ok absSrc =>
    rw [h1, except_bind_ok] at h
    cases h2 : absReleaseFolderS cfg with
    | error e => rw [h2, except_bind_error] at h; exact absurd h (by simp)
    | ok rel =>
      rw [h2, except_bind_ok] at h
      cases h3 : checkChroot cfg (pathToString destP) (some rel) with
      | error e => rw [h3, except_bind_error] at h; exact absurd h (by simp)
      | ok absDest =>
        rw [h3, except_bind_ok] at h
        split at h
        · -- file copy
          unfold osSafeMakedirs at h
          cases h4 : checkChroot cfg (pathToString absDest) none with
          | error e => rw [h4, except_bind_error] at h; exact absurd h (by simp)
          | ok absP =>
            rw [h4, except_bind_ok] at h
            split at h
            · simp only [except_bind_ok, pure, Except.pure, Except.ok.injEq,
                Prod.mk.injEq] at h
              obtain ⟨-, h6⟩ := h
              subst h6
              exact ⟨rfl, rfl, FsAct.copyFile absSrc absDest, by simp, rfl⟩
            · simp only [except_bind_ok, pure, Except.pure, Except.ok.injEq,
                Prod.mk.injEq] at h
              obtain ⟨-, h6⟩ := h
              subst h6
              exact ⟨rfl, rfl, FsAct.copyFile absSrc absDest, by simp, rfl⟩
        · split at h
          · simp only [pure, Except.pure, Except.ok.injEq, Prod.mk.injEq] at h
            obtain ⟨-, h6⟩ := h
            subst h6
            exact ⟨rfl, rfl, FsAct.copyTree absSrc absDest, by simp, rfl⟩
          · exact absurd h (by simp)

theorem noTrailingMk_append {a b : List FsAct} (hb : b ≠ []) :
    noTrailingMk (a ++ b) = noTrailingMk b := by
  unfold noTrailingMk
  rw [List.getLast?_append_of_ne_nil a hb]

theorem copyLoopAccActs (cfg : Config) (destP : List String) :
    ∀ (srcs : List (List String)) (fs : FS) (sv : Option (List String))
      (acc : List FsAct),
      ∃ t, (copyLoop cfg destP fs sv acc srcs).2.2.1 = acc ++ t
  | [], fs, sv, acc => ⟨[], (List.append_nil acc).symm⟩
  | s :: ss, fs, sv, acc => by
    cases hc : osSafeCopyToRelease cfg fs s destP with
    | error e => exact ⟨[], by simp [copyLoop, hc]⟩
    | ok p =>
      obtain ⟨fs1, as⟩ := p
      obtain ⟨t, ht⟩ := copyLoopAccActs cfg destP ss fs1 (some s) (acc ++ as)
      exact ⟨as ++ t, by simp [copyLoop, hc, ht, List.append_assoc]⟩

theorem copyLoop_no_copy (cfg : Config) (destP : List String) :
    ∀ (srcs : List (List String)) (fs : FS) (sv : Option (List String))
      (acc : List FsAct) (fs1 : FS) (sv1 : Option (List String))
      (acts : List FsAct) (err : Option BErr),
      copyLoop cfg destP fs sv acc srcs = (fs1, sv1, acts, err) →
      (∀ a ∈ acts, isCopyAct a = false) → fs1 = fs ∧ acts = acc
  | [], fs, sv, acc, fs1, sv1, acts, err => by
    intro h _
    simp only [copyLoop, Prod.mk.injEq] at h
    exact ⟨h.1.symm, h.2.2.1.symm⟩
  | s :: ss, fs, sv, acc, fs1, sv1, acts, err => by
    intro h hno
    cases hc : osSafeCopyToRelease cfg fs s destP with
    | error e =>
      simp only [copyLoop, hc, Prod.mk.injEq] at h
      exact ⟨h.1.symm, h.2.2.1.symm⟩
    | ok p =>
      obtain ⟨fs2, as⟩ := p
      simp only [copyLoop, hc] at h
      exfalso
      obtain ⟨-, -, a, ha, hcp⟩ := osSafeCopy_ok_shape hc
      obtain ⟨t, ht⟩ := copyLoopAccActs cfg destP ss fs2 (some s) (acc ++ as)
      rw [h] at ht
      have ht2 : acts = acc ++ as ++ t := ht
      have hmem : a ∈ acts := by
        rw [ht2]
        simp [ha]
      rw [hno a hmem] at hcp
      exact absurd hcp (by simp)

theorem copyLoop_lazy (cfg : Config) (destP : List String) :
    ∀ (srcs : List (List String)) (fs : FS) (sv : Option (List String))
      (acc : List FsAct),
      lazyCreation acc = true → noTrailingMk acc = true →
      lazyCreation (copyLoop cfg destP fs sv acc srcs).2.2.1 = true
        ∧ noTrailingMk (copyLoop cfg destP fs sv acc srcs).2.2.1 = true
  | [], fs, sv, acc => fun h1 h2 => ⟨h1, h2⟩
  | s :: ss, fs, sv, acc => by
    intro h1 h2
    cases hc : osSafeCopyToRelease cfg fs s destP with
    | error e =>
      simp only [copyLoop, hc]
      exact ⟨h1, h2⟩
    | ok p =>
      obtain ⟨fs2, as⟩ := p
      obtain ⟨hl, hn, a, ha, -⟩ := osSafeCopy_ok_shape hc
      have hne : as ≠ [] := by
        intro hcon
        rw [hcon] at ha
        simp at ha
      simp only [copyLoop, hc]
      exact copyLoop_lazy cfg destP ss fs2 (some s) (acc ++ as)
        (lazyCreation_append hl h1 h2)
        (by rw [noTrailingMk_append hne]; exact hn)

theorem osSafeDelete_ok_shape {cfg : Config} {fs : FS} {pathS : String}
    {fs1 : FS} {as : List FsAct}
    (h : osSafeDeleteFromDest cfg fs pathS = .ok (fs1, as)) :
    (∀ a ∈ as, isCopyAct a = false ∧ isMkdirsAct a = false)
      ∧ fs1.files ⊆ fs.files ∧ fs1.dirs ⊆ fs.dirs := by
  unfold osSafeDeleteFromDest at h
  cases h1 : absReleaseFolderS cfg with
  | error e => rw [h1, except_bind_error] at h; exact absurd h (by simp)
  | ok rel =>
    rw [h1, except_bind_ok] at h
    cases h2 : checkChroot cfg pathS (some rel) with
    | error e => rw [h2, except_bind_error] at h; exact absurd h (by simp)
    | ok absP =>
      rw [h2, except_bind_ok] at h
      split at h
      · simp only [pure, Except.pure, Except.ok.injEq, Prod.mk.injEq] at h
        obtain ⟨h5, h6⟩ := h
        subst h6
        refine ⟨by simp [isCopyAct, isMkdirsAct], ?_, ?_⟩
        · rw [← h5]; exact (List.filter_sublist _).subset
        · rw [← h5]; exact fun _ hx => hx
      · simp only [pure, Except.pure, Except.ok.injEq, Prod.mk.injEq] at h
        obtain ⟨h5, h6⟩ := h
        subst h6
        refine ⟨by simp [isCopyAct, isMkdirsAct], ?_, ?_⟩
        · rw [← h5]; exact (List.filter_sublist _).subset
        · rw [← h5]; exact (List.filter_sublist _).subset

theorem dropTargets_frame (cfg : Config) :
    ∀ (ts : List (List String)) (fs : FS) (acc : List FsAct)
      (fs2 : FS) (acts : List FsAct) (e : Option BErr),
      processDrop.dropTargets cfg fs acc ts = (fs2, acts, e) →
      (∀ a ∈ acc, isCopyAct a = false ∧ isMkdirsAct a = false) →
      (∀ a ∈ acts, isCopyAct a = false ∧ isMkdirsAct a = false)
        ∧ fs2.files ⊆ fs.files ∧ fs2.dirs ⊆ fs.dirs
  | [], fs, acc, fs2, acts, e => by
    intro h hacc
    simp only [processDrop.dropTargets, Prod.mk.injEq] at h
    obtain ⟨h1, h2, -⟩ := h
    subst h1
    subst h2
    exact ⟨hacc, fun _ hx => hx, fun _ hx => hx⟩
  | t :: ts, fs, acc, fs2, acts, e => by
    intro h hacc
    cases hd : osSafeDeleteFromDest cfg fs (pathToString t) with
    | error er =>
      simp only [processDrop.dropTargets, hd, Prod.mk.injEq] at h
      obtain ⟨h1, h2, -⟩ := h
      subst h1
      subst h2
      exact ⟨hacc, fun _ hx => hx, fun _ hx => hx⟩
    | ok p =>
      obtain ⟨fs1, as⟩ := p
      simp only [processDrop.dropTargets, hd] at h
      obtain ⟨hshape, hsf, hsd⟩ := osSafeDelete_ok_shape hd
      obtain ⟨hall, hf2, hd2⟩ := dropTargets_frame cfg ts fs1 (acc ++ as) fs2 acts e h
        (by
          intro a ha
          rcases List.mem_append.mp ha with h1 | h1
          · exact hacc a h1
          · exact hshape a h1)
      exact ⟨hall, fun x hx => hsf (hf2 hx), fun x hx => hsd (hd2 hx)⟩

theorem processDrop_frame {cfg : Config} {fs : FS} {destFolder : String}
    {destP : List String} {pat : String} {fs2 : FS} {acts : List FsAct}
    {e : Option BErr}
    (h : processDrop cfg fs destFolder destP pat = (fs2, acts, e)) :
    (∀ a ∈ acts, isCopyAct a = false ∧ isMkdirsAct a = false)
      ∧ fs2.files ⊆ fs.files ∧ fs2.dirs ⊆ fs.dirs := by
  cases hm : makeDestPath cfg (osJoin destFolder pat) false with
  | error er =>
    simp only [processDrop, hm, Prod.mk.injEq] at h
    obtain ⟨h1, h2, -⟩ := h
    subst h1
    subst h2
    exact ⟨by simp, fun _ hx => hx, fun _ hx => hx⟩
  | ok cleanup =>
    simp only [processDrop, hm] at h
    split at h
    · simp only [Prod.mk.injEq] at h
      obtain ⟨h1, h2, -⟩ := h
      subst h1
      subst h2
      exact ⟨by simp, fun _ hx => hx, fun _ hx => hx⟩
    · split at h
      · simp only [Prod.mk.injEq] at h
        obtain ⟨h1, h2, -⟩ := h
        subst h1
        subst h2
        exact ⟨by simp, fun _ hx => hx, fun _ hx => hx⟩
      · exact dropTargets_frame cfg (globFS fs cleanup) fs [] fs2 acts e h (by simp)

theorem dropPhase_frame (cfg : Config) (destFolder : String) (destP : List String) :
    ∀ (ps : List String) (fs : FS) (acc : List FsAct)
      (fs2 : FS) (acts : List FsAct) (e : Option BErr),
      dropPhase cfg destFolder destP fs acc ps = (fs2, acts, e) →
      (∀ a ∈ acc, isCopyAct a = false ∧ isMkdirsAct a = false) →
      (∀ a ∈ acts, isCopyAct a = false ∧ isMkdirsAct a = false)
        ∧ fs2.files ⊆ fs.files ∧ fs2.dirs ⊆ fs.dirs
  | [], fs, acc, fs2, acts, e => by
    intro h hacc
    simp only [dropPhase, Prod.mk.injEq] at h
    obtain ⟨h1, h2, -⟩ := h
    subst h1
    subst h2
    exact ⟨hacc, fun _ hx => hx, fun _ hx => hx⟩
  | p :: ps, fs, acc, fs2, acts, e => by
    intro h hacc
    cases hd : processDrop cfg fs destFolder destP p with
    | mk fs1 rest =>
      obtain ⟨as, e1⟩ := rest
      obtain ⟨hshape, hsf, hsd⟩ := processDrop_frame hd
      cases e1 with
      | some er =>
        simp only [dropPhase, hd, Prod.mk.injEq] at h
        obtain ⟨h1, h2, -⟩ := h
        subst h1
        subst h2
        refine ⟨?_, hsf, hsd⟩
        intro a ha
        rcases List.mem_append.mp ha with h1 | h1
        · exact hacc a h1
        · exact hshape a h1
      | none =>
        simp only [dropPhase, hd] at h
        obtain ⟨hall, hf2, hd2⟩ := dropPhase_frame cfg destFolder destP ps fs1
          (acc ++ as) fs2 acts e h
          (by
            intro a ha
            rcases List.mem_append.mp ha with h1 | h1
            · exact hacc a h1
            · exact hshape a h1)
        exact ⟨hall, fun x hx => hsf (hf2 hx), fun x hx => hsd (hd2 hx)⟩

theorem copyPhase_shape {cfg : Config} {fs : FS} {sv : Option (List String)}
    {cs : Option (List (List String))} {destP : List String}
    {fs1 : FS} {sv1 : Option (List String)} {a1 : List FsAct} {e1 : Option BErr}
    (h : copyPhase cfg fs sv cs destP = (fs1, sv1, a1, e1)) :
    lazyCreation a1 = true ∧ noTrailingMk a1 = true
      ∧ ((∀ a ∈ a1, isCopyAct a = false) → fs1 = fs ∧ a1 = []) := by
  cases cs with
  | none =>
    simp only [copyPhase, Prod.mk.injEq] at h
    obtain ⟨h1, -, h3, -⟩ := h
    subst h1
    subst h3
    exact ⟨rfl, rfl, fun _ => ⟨rfl, rfl⟩⟩
  | some srcs =>
    cases hcl : copyLoop cfg destP fs sv [] srcs with
    | mk fsL rest =>
      obtain ⟨svL, actsL, errL⟩ := rest
      have hlz := copyLoop_lazy cfg destP srcs fs sv [] rfl rfl
      rw [hcl] at hlz
      have hlz1 : lazyCreation actsL = true := hlz.1
      have hlz2 : noTrailingMk actsL = true := hlz.2
      have hnc : (∀ a ∈ actsL, isCopyAct a = false) → fsL = fs ∧ actsL = [] :=
        fun hno => copyLoop_no_copy cfg destP srcs fs sv [] fsL svL actsL errL hcl hno
      cases errL with
      | some er =>
        simp only [copyPhase, hcl, Prod.mk.injEq] at h
        obtain ⟨h1, -, h3, -⟩ := h
        subst h1
        subst h3
        exact ⟨hlz1, hlz2, hnc⟩
      | none =>
        cases hsE : srcs.isEmpty with
        | true =>
          cases svL with
          | none =>
            simp only [copyPhase, hcl, hsE, if_true, Prod.mk.injEq] at h
            obtain ⟨h1, -, h3, -⟩ := h
            subst h1
            subst h3
            exact ⟨hlz1, hlz2, hnc⟩
          | some s0 =>
            simp only [copyPhase, hcl, hsE, if_true, Prod.mk.injEq] at h
            obtain ⟨h1, -, h3, -⟩ := h
            subst h1
            subst h3
            exact ⟨hlz1, hlz2, hnc⟩
        | false =>
          simp only [copyPhase, hcl, hsE, Bool.false_eq_true, if_false,
            Prod.mk.injEq] at h
          obtain ⟨h1, -, h3, -⟩ := h
          subst h1
          subst h3
          exact ⟨hlz1, hlz2, hnc⟩

/-- C8.  For every mapping entry, the action trace of `processEntry` obeys
the lazy-creation discipline: a destination folder is created (makedirs)
only immediately before an actual file copy into it, and folder-tree
copies create their folders only as part of the copy itself; moreover if
the entry performs no actual copy at all (e.g. a DELETE-only entry, or
one whose patterns were all skipped), then no new file or folder appears
on disk for that entry — the filesystem can only have shrunk.
-/
theorem c8_lazy_folder_creation (cfg : Config) (fs : FS)
    (sv : Option (List String)) (entry : String × List String) (fs2 : FS)
    (sv2 : Option (List String)) (acts : List FsAct) (err : Option BErr)
    (h : processEntry cfg fs sv entry = (fs2, sv2, acts, err)) :
    lazyCreation acts = true
  ∧ ((∀ a ∈ acts, isCopyAct a = false) →
      fs2.files ⊆ fs.files ∧ fs2.dirs ⊆ fs.dirs) := by
  cases hm : makeDestPath cfg entry.1 false with
  | error e =>
    simp only [processEntry, hm, Prod.mk.injEq] at h
    obtain ⟨h1, -, h3, -⟩ := h
    subst h1
    subst h3
    exact ⟨rfl, fun _ => ⟨fun _ hx => hx, fun _ hx => hx⟩⟩
  | ok destP =>
    cases hpl : processPatternList cfg fs ⟨none, []⟩ entry.2 with
    | error e =>
      simp only [processEntry, hm, hpl, Prod.mk.injEq] at h
      obtain ⟨h1, -, h3, -⟩ := h
      subst h1
      subst h3
      exact ⟨rfl, fun _ => ⟨fun _ hx => hx, fun _ hx => hx⟩⟩
    | ok st =>
      cases hcp : copyPhase cfg fs sv st.copySources destP with
      | mk fs1 rest =>
        obtain ⟨sv1, a1, e1⟩ := rest
        obtain ⟨hl1, hn1, hnc1⟩ := copyPhase_shape hcp
        cases e1 with
        | some er =>
          simp only [processEntry, hm, hpl, hcp, Prod.mk.injEq] at h
          obtain ⟨h1, -, h3, -⟩ := h
          subst h1
          subst h3
          refine ⟨hl1, fun hno => ?_⟩
          obtain ⟨rfl, -⟩ := hnc1 hno
          exact ⟨fun _ hx => hx, fun _ hx => hx⟩
        | none =>
          cases hdp : dropPhase cfg entry.1 destP fs1 [] st.dropPatterns with
          | mk fsD rest2 =>
            obtain ⟨a2, e2⟩ := rest2
            obtain ⟨hshape2, hsf2, hsd2⟩ :=
              dropPhase_frame cfg entry.1 destP st.dropPatterns fs1 [] fsD a2 e2
                hdp (by simp)
            simp only [processEntry, hm, hpl, hcp, hdp, Prod.mk.injEq] at h
            obtain ⟨h1, -, h3, -⟩ := h
            subst h1
            subst h3
            have hlz2 := lazyCreation_of_no_mkdirs
              (l := a2) (fun a ha => (hshape2 a ha).2)
            refine ⟨lazyCreation_append hlz2.1 hl1 hn1, fun hno => ?_⟩
            have hno1 : ∀ a ∈ a1, isCopyAct a = false :=
              fun a ha => hno a (List.mem_append.mpr (.inl ha))
            obtain ⟨rfl, -⟩ := hnc1 hno1
            exact ⟨fun x hx => hsf2 hx, fun x hx => hsd2 hx⟩

/-- The destination folder of the mapping key `Sub` under `cfg0`. -/
def destSub : List String := ["r", "Release", "GameData", "Mod", "Sub"]

/-- A release tree containing a stale `old.bak` and a `keep.cfg` inside
the `Sub` folder. -/
def fsSub : FS :=
  { files := [destSub ++ ["old.bak"], destSub ++ ["keep.cfg"]],
    dirs := [["r"], ["r", "Release"], ["r", "Release", "GameData"],
             ["r", "Release", "GameData", "Mod"], destSub] }

/-- Witness for C8 at a concrete DELETE-only entry: the trace is lazy
(no folder creation at all) and the filesystem only shrinks. -/
theorem c8_lazy_folder_creation_witness :
    lazyCreation [FsAct.unlink (destSub ++ ["old.bak"])] = true
  ∧ (processEntry cfg0 fsSub none ("Sub", ["-old.bak"])).1.files ⊆ fsSub.files
  ∧ (processEntry cfg0 fsSub none ("Sub", ["-old.bak"])).1.dirs ⊆ fsSub.dirs := by
  have h := c8_lazy_folder_creation cfg0 fsSub none ("Sub", ["-old.bak"])
    (fsSub.files.filter (fun f => f ≠ destSub ++ ["old.bak"]) |>
      fun fl => { files := fl, dirs := fsSub.dirs })
    none [FsAct.unlink (destSub ++ ["old.bak"])] none rfl
  refine ⟨h.1, ?_, ?_⟩
  · exact (h.2 (by decide)).1
  · exact (h.2 (by decide)).2

/-! ## C2: deletion patterns -/

/-- Well-formed filesystem: no path is both a file and a directory, and
nothing lives strictly below a file. -/
structure FSWF (fs : FS) : Prop where
  disj : ∀ p ∈ fs.files, p ∉ fs.dirs
  leafF : ∀ p ∈ fs.files, ∀ q ∈ fs.files, p <+: q → p = q
  leafD : ∀ p ∈ fs.files, ∀ q ∈ fs.dirs, p <+: q → p = q

/-- A literal glob component (no wildcard characters). -/
def litComp (s : String) : Bool := s.toList.all (fun ch => ch ≠ '*' && ch ≠ '?')

/-- A relative path of a single component that is neither `..` nor `.`
identifies a direct child of the base. -/
theorem relpath_single {p root : List String} {c : String}
    (h : relpathComps p root = [c]) (hc1 : c ≠ "..") (hc2 : c ≠ ".") :
    p = root ++ [c] := by
  by_cases hk : commonPrefixLen p root = root.length
  · obtain ⟨t, ht⟩ := prefix_of_commonPrefixLen_eq p root hk
    unfold relpathComps at h
    rw [hk] at h
    simp only [Nat.sub_self, List.replicate_zero, List.nil_append] at h
    have hdrop : p.drop root.length = t := by
      rw [← ht, List.drop_append_of_le_length (le_refl _), List.drop_length,
        List.nil_append]
    split at h
    · next he =>
      rw [he] at hdrop
      simp only [List.cons.injEq] at h
      exact absurd h.1.symm hc2
    · rw [h] at hdrop
      rw [← ht, ← hdrop]
  · exfalso
    have hlt : commonPrefixLen p root < root.length :=
      lt_of_le_of_ne (commonPrefixLen_le_right p root) hk
    rw [relpathComps_head_of_lt hlt] at h
    simp only [List.cons.injEq] at h
    exact hc1 h.1.symm

theorem globMatchC_literal :
    ∀ {p s : List Char}, (∀ ch ∈ p, ch ≠ '*' ∧ ch ≠ '?') →
      (globMatchC p s = true ↔ s = p)
  | [], s, _ => by
    simp [globMatchC, List.isEmpty_iff]
  | q :: ps, [], h => by
    have hq := h q (by simp)
    rw [globMatchC.eq_def]
    simp [hq.1]
  | q :: ps, c :: cs, h => by
    have hq := h q (by simp)
    have hrec := globMatchC_literal (p := ps) (s := cs)
      (fun ch hch => h ch (by simp [hch]))
    rw [globMatchC.eq_def]
    simp only [hq.1, if_false, hq.2, Bool.and_eq_true, decide_eq_true_eq,
      List.cons.injEq, hrec]
    constructor
    · rintro ⟨h1, h2⟩
      exact ⟨h1.symm, h2⟩
    · rintro ⟨h1, h2⟩
      exact ⟨h1.symm, h2⟩

theorem globComp_literal {pat name : String} (hlit : litComp pat = true) :
    globComp pat name = true ↔ name = pat := by
  have hchars : ∀ ch ∈ pat.toList, ch ≠ '*' ∧ ch ≠ '?' := by
    intro ch hch
    have := (List.all_eq_true.mp hlit) ch hch
    simp only [Bool.and_eq_true, decide_eq_true_eq] at this
    exact this
  unfold globComp
  split
  · next hhid =>
    constructor
    · intro h; exact absurd h (by simp)
    · rintro rfl
      simp at hhid
  · rw [globMatchC_literal hchars]
    constructor
    · intro h
      cases pat with
      | mk pd =>
        cases name with
        | mk nd => exact congrArg String.mk h
    · rintro rfl; rfl

theorem compsMatch_snoc :
    ∀ {a : List String} {c : String} {t : List String},
      (∀ x ∈ a, litComp x = true) → compsMatch (a ++ [c]) t = true →
      ∃ y, t = a ++ [y] ∧ globComp c y = true
  | [], c, t, _, h => by
    simp only [List.nil_append, compsMatch, List.length_cons, List.length_nil,
      Bool.and_eq_true, decide_eq_true_eq, List.all_eq_true] at h
    cases t with
    | nil => simp at h
    | cons y ys =>
      cases ys with
      | nil =>
        refine ⟨y, rfl, ?_⟩
        exact h.2 (c, y) (by simp [List.zip])
      | cons z zs => simp at h
  | x :: a, c, t, hlit, h => by
    simp only [List.cons_append, compsMatch, List.length_cons, Bool.and_eq_true,
      decide_eq_true_eq, List.all_eq_true] at h
    cases t with
    | nil => simp at h
    | cons z t2 =>
      have hx : globComp x z = true := h.2 (x, z) (by simp [List.zip_cons_cons])
      have hz : z = x := (globComp_literal (hlit x (by simp))).mp hx
      subst hz
      have hrec : compsMatch (a ++ [c]) t2 = true := by
        simp only [compsMatch, Bool.and_eq_true, decide_eq_true_eq,
          List.all_eq_true, List.length_append, List.length_cons, List.length_nil]
        constructor
        · have := h.1
          simp only [List.length_append, List.length_cons, List.length_nil] at this ⊢
          omega
        · intro q hq
          refine h.2 q ?_
          simp only [List.zip_cons_cons, List.mem_cons]
          exact Or.inr hq
      obtain ⟨y, hy, hcy⟩ := compsMatch_snoc
        (fun u hu => hlit u (by simp [hu])) hrec
      exact ⟨y, by simp [hy], hcy⟩

theorem contains_iff_mem {l : List (List String)} {x : List String} :
    l.contains x = true ↔ x ∈ l := List.elem_iff

/-- Under a well-formed filesystem, both branches of
`__OsSafeDeleteFromDest` (unlink and tolerant rmtree) remove exactly the
target and everything below it. -/
theorem osSafeDelete_removes {cfg : Config} {fs : FS} {t : List String}
    {relS : String} (hwf : FSWF fs)
    (hrelS : absReleaseFolderS cfg = .ok relS)
    (hcc : checkChroot cfg (pathToString t) (some relS) = .ok t) :
    ∃ as, osSafeDeleteFromDest cfg fs (pathToString t)
      = .ok (removeSubtree fs t, as) := by
  unfold osSafeDeleteFromDest
  rw [hrelS, except_bind_ok, hcc, except_bind_ok]
  by_cases hmem : t ∈ fs.files
  · rw [if_pos (contains_iff_mem.mpr hmem)]
    refine ⟨[FsAct.unlink t], ?_⟩
    have hfiles : fs.files.filter (fun f => f ≠ t)
        = fs.files.filter (fun f => !t.isPrefixOf f) := by
      apply List.filter_congr
      intro f hf
      by_cases hft : f = t
      · subst hft
        simp [List.isPrefixOf_iff_prefix]
      · have hnp : ¬ t <+: f := fun hp => hft (hwf.leafF t hmem f hf hp).symm
        have hpf : t.isPrefixOf f = false := by
          cases hb : t.isPrefixOf f with
          | false => rfl
          | true => exact absurd (List.isPrefixOf_iff_prefix.mp hb) hnp
        simp [hft, hpf]
    have hdirs : fs.dirs = fs.dirs.filter (fun d => !t.isPrefixOf d) := by
      refine (List.filter_eq_self.mpr ?_).symm
      intro d hd
      have hnp : ¬ t <+: d := by
        intro hp
        have := hwf.leafD t hmem d hd hp
        exact hwf.disj t hmem (this ▸ hd)
      have hpf : t.isPrefixOf d = false := by
        cases hb : t.isPrefixOf d with
        | false => rfl
        | true => exact absurd (List.isPrefixOf_iff_prefix.mp hb) hnp
      simp [hpf]
    unfold removeSubtree
    rw [← hfiles, ← hdirs]
    rfl
  · rw [if_neg (fun hc => hmem (contains_iff_mem.mp hc))]
    exact ⟨[FsAct.rmtree t], rfl⟩

/-- `removeSubtree` preserves well-formedness. -/
theorem FSWF_removeSubtree {fs : FS} (hwf : FSWF fs) (t : List String) :
    FSWF (removeSubtree fs t) := by
  constructor
  · intro p hp hq
    exact hwf.disj p (List.mem_of_mem_filter hp) (List.mem_of_mem_filter hq)
  · intro p hp q hq hpre
    exact hwf.leafF p (List.mem_of_mem_filter hp) q (List.mem_of_mem_filter hq) hpre
  · intro p hp q hq hpre
    exact hwf.leafD p (List.mem_of_mem_filter hp) q (List.mem_of_mem_filter hq) hpre

/-- The drop loop removes exactly the targets and their subtrees. -/
theorem dropTargets_exact (cfg : Config) (relS : String)
    (hrelS : absReleaseFolderS cfg = .ok relS) :
    ∀ (ts : List (List String)) (fs : FS) (acc : List FsAct), FSWF fs →
      (∀ t ∈ ts, checkChroot cfg (pathToString t) (some relS) = .ok t) →
      ∃ as, processDrop.dropTargets cfg fs acc ts =
        ({ files := fs.files.filter (fun f => !(ts.any (fun t => t.isPrefixOf f))),
           dirs := fs.dirs.filter (fun d => !(ts.any (fun t => t.isPrefixOf d))) },
         acc ++ as, none)
  | [], fs, acc, hwf, hcc => by
    refine ⟨[], ?_⟩
    simp only [processDrop.dropTargets, List.any_nil, Bool.not_false,
      List.filter_true, List.append_nil]
  | t :: ts, fs, acc, hwf, hcc => by
    obtain ⟨as1, has1⟩ := osSafeDelete_removes hwf hrelS (hcc t (by simp))
    obtain ⟨as2, has2⟩ := dropTargets_exact cfg relS hrelS ts (removeSubtree fs t)
      (acc ++ as1) (FSWF_removeSubtree hwf t)
      (fun u hu => hcc u (by simp [hu]))
    refine ⟨as1 ++ as2, ?_⟩
    simp only [processDrop.dropTargets, has1, has2]
    have hfs : FS.mk
          ((removeSubtree fs t).files.filter
            (fun f => !(ts.any (fun u => u.isPrefixOf f))))
          ((removeSubtree fs t).dirs.filter
            (fun d => !(ts.any (fun u => u.isPrefixOf d))))
        = FS.mk
            (fs.files.filter (fun f => !((t :: ts).any (fun u => u.isPrefixOf f))))
            (fs.dirs.filter (fun d => !((t :: ts).any (fun u => u.isPrefixOf d)))) := by
      unfold removeSubtree
      simp only [List.filter_filter, List.any_cons]
      congr 1
      · exact List.filter_congr (fun f _ => by
          cases t.isPrefixOf f <;> cases ts.any (fun u => u.isPrefixOf f) <;> rfl)
      · exact List.filter_congr (fun d _ => by
          cases t.isPrefixOf d <;> cases ts.any (fun u => u.isPrefixOf d) <;> rfl)
    rw [hfs, List.append_assoc]

/-- C2 (amended).  For a DELETE pattern resolved against the entry's own
destination folder: (a) if the resolved relative path contains a
directory separator (two or more components) or begins textually with
`..`, the drop step aborts with the invalid-deletion-scope error before
deleting anything; (b) otherwise — a single-component relative path not
beginning with the characters `..` and not `.` — the resolved path is the
direct child `destP ++ [c]`, every glob target is a direct child of the
entry's destination folder, and exactly the glob-matched targets (with
their subtrees) are removed while every other file and folder is left
unchanged.  The amendment relative to the claim: the reject condition is
the textual `startswith("..")`, so a direct child whose name merely
begins with `..` (e.g. `..foo`) is also rejected rather than deleted (see
the counterexample).
-/
theorem c2_deletion_scope_amended (cfg : Config) (fs : FS) (destFolder : String)
    (destP : List String) (pat : String) (cleanup : List String)
    (hm : makeDestPath cfg (osJoin destFolder pat) false = .ok cleanup) :
    ((startsDotDot (relpathComps cleanup destP) = true
        ∨ 2 ≤ (relpathComps cleanup destP).length) →
      processDrop cfg fs destFolder destP pat = (fs, [], some .invalidDeletionScope))
  ∧ (∀ c relS, relpathComps cleanup destP = [c] → strPre ".." c = false → c ≠ "." →
      FSWF fs → (∀ x ∈ destP, litComp x = true) →
      absReleaseFolderS cfg = .ok relS →
      (∀ t ∈ globFS fs cleanup, checkChroot cfg (pathToString t) (some relS) = .ok t) →
      cleanup = destP ++ [c]
      ∧ (∀ t ∈ globFS fs cleanup, destP <+: t ∧ t.length = destP.length + 1)
      ∧ ∃ fs2 acts, processDrop cfg fs destFolder destP pat = (fs2, acts, none)
          ∧ fs2.files = fs.files.filter
              (fun f => !((globFS fs cleanup).any (fun t => t.isPrefixOf f)))
          ∧ fs2.dirs = fs.dirs.filter
              (fun d => !((globFS fs cleanup).any (fun t => t.isPrefixOf d)))) := by
  constructor
  · intro hcond
    have hb : (startsDotDot (relpathComps cleanup destP)
        || decide (2 ≤ (relpathComps cleanup destP).length)) = true := by
      rcases hcond with h | h
      · simp [h]
      · simp [h]
    simp only [processDrop, hm, hb, if_true]
  · intro c relS hrel hdd hdot hwf hlit hrelS hcc
    have hc2 : c ≠ ".." := by
      intro hcon
      subst hcon
      exact absurd hdd (by decide)
    have hcl : cleanup = destP ++ [c] := relpath_single hrel hc2 hdot
    have htargets : ∀ t ∈ globFS fs cleanup,
        destP <+: t ∧ t.length = destP.length + 1 := by
      intro t ht
      have hcm : compsMatch (destP ++ [c]) t = true := by
        rw [← hcl]
        exact (List.mem_filter.mp ht).2
      obtain ⟨y, hy, -⟩ := compsMatch_snoc hlit hcm
      subst hy
      exact ⟨⟨[y], rfl⟩, by simp⟩
    have hb : (startsDotDot (relpathComps cleanup destP)
        || decide (2 ≤ (relpathComps cleanup destP).length)) = false := by
      rw [hrel]
      simp only [startsDotDot, hdd, List.length_cons, List.length_nil,
        Bool.false_or, decide_eq_false_iff_not]
      omega
    refine ⟨hcl, htargets, ?_⟩
    cases hTE : (globFS fs cleanup).isEmpty with
    | true =>
      have htnil : globFS fs cleanup = [] := List.isEmpty_iff.mp hTE
      refine ⟨fs, [], ?_, ?_, ?_⟩
      · simp only [processDrop, hm, hb, Bool.false_eq_true, if_false, hTE, if_true]
      · rw [htnil]
        refine (List.filter_eq_self.mpr ?_).symm
        intro a _
        simp
      · rw [htnil]
        refine (List.filter_eq_self.mpr ?_).symm
        intro a _
        simp
    | false =>
      obtain ⟨as, heq⟩ := dropTargets_exact cfg relS hrelS (globFS fs cleanup) fs []
        hwf hcc
      refine ⟨FS.mk
          (fs.files.filter (fun f => !((globFS fs cleanup).any (fun t => t.isPrefixOf f))))
          (fs.dirs.filter (fun d => !((globFS fs cleanup).any (fun t => t.isPrefixOf d)))),
        as, ?_, rfl, rfl⟩
      simp only [processDrop, hm, hb, Bool.false_eq_true, if_false, hTE, heq,
        List.nil_append]

instance {ε α : Type} [DecidableEq ε] [DecidableEq α] : DecidableEq (Except ε α) :=
  fun a b =>
    match a, b with
    | .error e1, .error e2 =>
      if h : e1 = e2 then isTrue (by rw [h]) else isFalse (by simp [h])
    | .ok v1, .ok v2 =>
      if h : v1 = v2 then isTrue (by rw [h]) else isFalse (by simp [h])
    | .error _, .ok _ => isFalse (by simp)
    | .ok _, .error _ => isFalse (by simp)

/-- A release tree in which `Sub` contains a direct child literally named
`..f`. -/
def fsDotted : FS :=
  { files := [destSub ++ ["..f"]],
    dirs := [["r"], ["r", "Release"], ["r", "Release", "GameData"],
             ["r", "Release", "GameData", "Mod"], destSub] }

/-- C2 counterexample to the claim as stated: the DELETE pattern `-..f` on
the entry with destination folder `Sub` resolves to the direct child
`.../Sub/..f` — a relative path of a single component with no directory
separator and no `..` traversal component, naming an existing direct
child that glob would match — yet the scope check is the textual
`relpath.startswith("..")`, so the drop step aborts with the
invalid-deletion-scope error instead of removing that child.
-/
theorem c2_scope_check_rejects_direct_child :
    makeDestPath cfg0 (osJoin "Sub" "..f") false = .ok (destSub ++ ["..f"])
  ∧ relpathComps (destSub ++ ["..f"]) destSub = ["..f"]
  ∧ ("..f" : String) ≠ ".."
  ∧ globFS fsDotted (destSub ++ ["..f"]) = [destSub ++ ["..f"]]
  ∧ processDrop cfg0 fsDotted "Sub" destSub "..f"
      = (fsDotted, [], some .invalidDeletionScope) :=
  ⟨rfl, rfl, by decide, rfl, rfl⟩

/-- Witness for C2 at the concrete happy path: `-old.bak` on the `Sub`
entry removes exactly the matched direct child and leaves `keep.cfg`
untouched. -/
theorem c2_deletion_scope_amended_witness :
    destSub ++ ["old.bak"] = destSub ++ ["old.bak"]
  ∧ (∀ t ∈ globFS fsSub (destSub ++ ["old.bak"]),
      destSub <+: t ∧ t.length = destSub.length + 1)
  ∧ ∃ fs2 acts, processDrop cfg0 fsSub "Sub" destSub "old.bak" = (fs2, acts, none)
      ∧ fs2.files = fsSub.files.filter
          (fun f => !((globFS fsSub (destSub ++ ["old.bak"])).any
            (fun t => t.isPrefixOf f)))
      ∧ fs2.dirs = fsSub.dirs.filter
          (fun d => !((globFS fsSub (destSub ++ ["old.bak"])).any
            (fun t => t.isPrefixOf d))) :=
  (c2_deletion_scope_amended cfg0 fsSub "Sub" destSub "old.bak"
      (destSub ++ ["old.bak"]) rfl).2
    "old.bak" "/r/Release" rfl (by decide) (by decide)
    ⟨by decide, by decide, by decide⟩ (by decide) rfl (by decide)
